import Mathlib

/-!
# Checkers engine (`jni/native_bot.cc`): bitboard, move generator, minimax bot

A shallow embedding of the C++ engine.

* `int` values (coordinates, bit indices, scores) are `Int`; every value the
  engine computes stays far inside the 32-bit range, `/` and `%` are the
  truncating `Int.tdiv` and `Int.tmod` of C++.
* `unsigned int` piece sets and masks are `Nat`, reduced modulo `2 ^ 32`
  where the C++ arithmetic can leave the word.
* `std::vector<Move>` is `List Move`; `push_back` appends at the end.
* The `for` loops of `CountBits` and `AddNextMoves` are recursive functions on
  an iteration budget; the budget given by the callers is never used up
  (`CountBitsLoop_budget`, `AddNextMovesLoop_budget`).
-/

namespace NativeBot

/-! ## Coordinate mapping -/

/-- Number of values of an `unsigned int`. -/
def kUnsignedRange : Nat := 2 ^ 32

/-- Translation of `GetBitIndexForSquare(x, y)`: `y * 4 + x / 2`. -/
def GetBitIndexForSquare (x y : Int) : Int :=
  y * 4 + Int.tdiv x 2

/-- Translation of `GetXYForBitIndex(index, &x, &y)`: `y = index / 4`,
`x = (index % 4) * 2 + y % 2`; the pair returned is `(x, y)`. -/
def GetXYForBitIndex (index : Int) : Int × Int :=
  let y := Int.tdiv index 4
  (Int.tmod index 4 * 2 + Int.tmod y 2, y)

/-- Translation of `GetPositionMaskForIndex(x, y)`: `1 << GetBitIndexForSquare(x, y)` as an
`unsigned int`.  The shift is defined in C++ only for an index in `0..31`;
the engine evaluates it only there (`IsWithinBoard` is tested first). -/
def GetPositionMaskForIndex (x y : Int) : Nat :=
  (1 <<< (GetBitIndexForSquare x y).toNat) % kUnsignedRange

/-- The `struct Position { int x, y; }`. -/
structure Position where
  x : Int
  y : Int
deriving DecidableEq

/-- Translation of `Position::GetPositionMask`. -/
def Position.GetPositionMask (p : Position) : Nat :=
  GetPositionMaskForIndex p.x p.y

/-- Translation of `IncrementPosition(&position)`. -/
def IncrementPosition (position : Position) : Position :=
  let x := position.x + 2
  if x ≥ 8 then
    let y := position.y + 1
    ⟨Int.tmod y 2, y⟩
  else ⟨x, position.y⟩

/-- Translation of `GetPositionForBitIndex(index, &position)`. -/
def GetPositionForBitIndex (index : Int) : Position :=
  ⟨(GetXYForBitIndex index).1, (GetXYForBitIndex index).2⟩

/-! ## Moves -/

/-- The `struct Move { Position start; Position end; }` (`end` is written
`end_`). -/
structure Move where
  start : Position
  end_ : Position
deriving DecidableEq

/-- Translation of `Move::IsJump`: `abs(end.x - start.x) == 2`. -/
def Move.IsJump (m : Move) : Bool :=
  (m.end_.x - m.start.x).natAbs == 2

/-- Translation of `Move::FillJumpPosition`: the midpoint of the move. -/
def Move.FillJumpPosition (m : Move) : Position :=
  ⟨Int.tdiv (m.end_.x + m.start.x) 2, Int.tdiv (m.end_.y + m.start.y) 2⟩

/-! ## BitBoard -/

/-- The `class BitBoard`: the two piece sets. -/
structure BitBoard where
  white_piece_set_ : Nat
  black_piece_set_ : Nat
deriving DecidableEq

namespace BitBoard

/-- Translation of `BitBoard::kBoardSize`. -/
def kBoardSize : Int := 8

/-- Translation of `IsPiecePresent(piece_set, position_mask)`. -/
def IsPiecePresent (piece_set position_mask : Nat) : Bool :=
  (piece_set &&& position_mask) != 0

/-- Translation of `IsPiecePresent(piece_set, position)`. -/
def IsPiecePresentAt (piece_set : Nat) (position : Position) : Bool :=
  IsPiecePresent piece_set position.GetPositionMask

/-- Translation of `IsEmptySquare(position_mask)`. -/
def IsEmptySquareMask (b : BitBoard) (position_mask : Nat) : Bool :=
  !IsPiecePresent b.white_piece_set_ position_mask &&
    !IsPiecePresent b.black_piece_set_ position_mask

/-- Translation of `IsEmptySquare(position)`. -/
def IsEmptySquare (b : BitBoard) (position : Position) : Bool :=
  b.IsEmptySquareMask position.GetPositionMask

/-- Translation of `IsWithinBoard(x, y)`. -/
def IsWithinBoardXY (x y : Int) : Bool :=
  decide (x ≥ 0) && decide (x < kBoardSize) && decide (y ≥ 0) && decide (y < kBoardSize)

/-- Translation of `IsWithinBoard(position)`. -/
def IsWithinBoard (position : Position) : Bool :=
  IsWithinBoardXY position.x position.y

/-- Translation of `ClearPiece`: `*piece_set &= ~position_mask`. -/
def ClearPiece (position_mask piece_set : Nat) : Nat :=
  piece_set &&& ((kUnsignedRange - 1) ^^^ position_mask)

/-- Translation of `SetPiece`: `*piece_set |= position_mask`. -/
def SetPiece (position_mask piece_set : Nat) : Nat :=
  piece_set ||| position_mask

/-- The loop of `CountBits`: while `piece_set != 0`, clear its lowest set bit
and increment `count`.  The first argument bounds the number of tests of the
loop condition. -/
def CountBitsLoop : Nat → Nat → Nat → Nat
  | 0, _, count => count
  | budget + 1, piece_set, count =>
    if piece_set ≠ 0 then
      CountBitsLoop budget (piece_set &&& (piece_set - 1)) (count + 1)
    else count

/-- Translation of `CountBits(piece_set)`. -/
def CountBits (piece_set : Nat) : Nat :=
  CountBitsLoop 33 piece_set 0

/-- Translation of `NumWhitePieces`. -/
def NumWhitePieces (b : BitBoard) : Nat := CountBits b.white_piece_set_

/-- Translation of `NumBlackPieces`. -/
def NumBlackPieces (b : BitBoard) : Nat := CountBits b.black_piece_set_

/-- Translation of `BitBoard::ApplyMove(is_white_player, move)`. -/
def ApplyMove (b : BitBoard) (is_white_player : Bool) (move : Move) : BitBoard :=
  if is_white_player then
    let player := SetPiece move.end_.GetPositionMask
      (ClearPiece move.start.GetPositionMask b.white_piece_set_)
    if move.IsJump then
      ⟨player, ClearPiece move.FillJumpPosition.GetPositionMask b.black_piece_set_⟩
    else ⟨player, b.black_piece_set_⟩
  else
    let player := SetPiece move.end_.GetPositionMask
      (ClearPiece move.start.GetPositionMask b.black_piece_set_)
    if move.IsJump then
      ⟨ClearPiece move.FillJumpPosition.GetPositionMask b.white_piece_set_, player⟩
    else ⟨b.white_piece_set_, player⟩

end BitBoard

/-! ## MoveGenerator -/

/-- The `class MoveGenerator`: the board and the fields set by `SetPlayer`. -/
structure MoveGenerator where
  bitboard_ : BitBoard
  player_piece_set_ : Nat
  opponent_piece_set_ : Nat
  ydiff_ : Int
deriving DecidableEq

namespace MoveGenerator

/-- Translation of `MoveGenerator(bitboard)` followed by `SetPlayer(is_white_player)`. -/
def SetPlayer (bitboard : BitBoard) (is_white_player : Bool) : MoveGenerator :=
  if is_white_player then
    ⟨bitboard, bitboard.white_piece_set_, bitboard.black_piece_set_, 1⟩
  else
    ⟨bitboard, bitboard.black_piece_set_, bitboard.white_piece_set_, -1⟩

/-- Translation of `CanMoveToPosition(position)`. -/
def CanMoveToPosition (g : MoveGenerator) (position : Position) : Bool :=
  BitBoard.IsWithinBoard position && g.bitboard_.IsEmptySquare position

/-- Translation of `MaybeAddSimpleMove(move, moves)`. -/
def MaybeAddSimpleMove (g : MoveGenerator) (move : Move) (moves : List Move) : List Move :=
  if g.CanMoveToPosition move.end_ then moves ++ [move] else moves

/-- Translation of `AddSimpleMovesFromPosition(position, moves)`. -/
def AddSimpleMovesFromPosition (g : MoveGenerator) (position : Position)
    (moves : List Move) : List Move :=
  let moves1 := g.MaybeAddSimpleMove ⟨position, ⟨position.x + 1, position.y + g.ydiff_⟩⟩ moves
  g.MaybeAddSimpleMove ⟨position, ⟨position.x - 1, position.y + g.ydiff_⟩⟩ moves1

/-- Translation of `MaybeAddJump(start, xdiff, moves)`. -/
def MaybeAddJump (g : MoveGenerator) (start : Position) (xdiff : Int)
    (moves : List Move) : List Move :=
  let kill : Position := ⟨start.x + xdiff, start.y + g.ydiff_⟩
  let end_ : Position := ⟨kill.x + xdiff, kill.y + g.ydiff_⟩
  if !g.CanMoveToPosition end_ then moves
  else if !BitBoard.IsPiecePresentAt g.opponent_piece_set_ kill then moves
  else moves ++ [⟨start, end_⟩]

/-- Translation of `AddJumpMovesFromPosition(position, moves)`. -/
def AddJumpMovesFromPosition (g : MoveGenerator) (position : Position)
    (moves : List Move) : List Move :=
  g.MaybeAddJump position (-1) (g.MaybeAddJump position 1 moves)

/-- The loop of `AddNextMoves`: `for (; position.y < 8; IncrementPosition)`.
The first argument bounds the number of tests of the loop condition. -/
def AddNextMovesLoop (g : MoveGenerator) : Nat → Position → List Move → List Move
  | 0, _, moves => moves
  | budget + 1, position, moves =>
    if position.y < 8 then
      if !BitBoard.IsPiecePresentAt g.player_piece_set_ position then
        AddNextMovesLoop g budget (IncrementPosition position) moves
      else
        AddNextMovesLoop g budget (IncrementPosition position)
          (g.AddJumpMovesFromPosition position (g.AddSimpleMovesFromPosition position moves))
    else moves

/-- Translation of `AddNextMoves(moves)`: the scan starts at `(0, 0)`. -/
def AddNextMoves (g : MoveGenerator) (moves : List Move) : List Move :=
  g.AddNextMovesLoop 33 ⟨0, 0⟩ moves

end MoveGenerator

/-- The generator call made by both bots: construct the generator on the
board, `SetPlayer`, `AddNextMoves` into an empty vector. -/
def generate (board : BitBoard) (is_white_player : Bool) : List Move :=
  (MoveGenerator.SetPlayer board is_white_player).AddNextMoves []

/-! ## GameState and the minimax bot -/

/-- The `struct GameState`. -/
structure GameState where
  board : BitBoard
  last_jump_position : Position
  is_white_player : Bool
  is_jump : Bool
deriving DecidableEq

/-- Translation of `ApplyMove(input_state, move, &output_state)` (the `assert` is compiled
out). -/
def ApplyMove (input_state : GameState) (move : Move) : GameState :=
  if move.IsJump then
    { board := input_state.board.ApplyMove input_state.is_white_player move
      last_jump_position := move.end_
      is_white_player := input_state.is_white_player
      is_jump := true }
  else
    { board := input_state.board.ApplyMove input_state.is_white_player move
      last_jump_position := input_state.last_jump_position
      is_white_player := !input_state.is_white_player
      is_jump := false }

/-- Conversion of an `unsigned int` to `int` (two's complement). -/
def toInt32 (u : Nat) : Int :=
  if u % kUnsignedRange ≥ 2 ^ 31 then (u % kUnsignedRange : Nat) - (kUnsignedRange : Int)
  else ((u % kUnsignedRange : Nat) : Int)

/-- Translation of `MinMaxBot::GameScore`: the unsigned difference of the piece counts,
converted to `int`. -/
def GameScore (board : BitBoard) : Int :=
  toInt32 ((board.NumWhitePieces + kUnsignedRange - board.NumBlackPieces) % kUnsignedRange)

/-- The `struct MinMaxBot::Result`; `game_state` is `none` while it has not been
assigned. -/
structure Result where
  game_state : Option GameState
  final_score : Int
deriving DecidableEq

/-- Translation of `kMaxDepth`. -/
def kMaxDepth : Nat := 3

/-- Translation of `FindBestMove(game_state, depth)` as a function of `kMaxDepth - depth`,
the number of recursive levels below the call: at `0` (that is
`depth == kMaxDepth`) each successor is scored by `GameScore`, otherwise by
the recursive call at `depth + 1`. -/
def FindBestMoveBelow : Nat → GameState → Result
  | 0, game_state =>
    (generate game_state.board game_state.is_white_player).foldl
      (fun best_result move =>
        let state := ApplyMove game_state move
        let score := GameScore state.board
        if game_state.is_white_player then
          if score > best_result.final_score then ⟨some state, score⟩ else best_result
        else
          if score < best_result.final_score then ⟨some state, score⟩ else best_result)
      ⟨none, if game_state.is_white_player then -50 else 50⟩
  | below + 1, game_state =>
    (generate game_state.board game_state.is_white_player).foldl
      (fun best_result move =>
        let state := ApplyMove game_state move
        let next_result := FindBestMoveBelow below state
        if game_state.is_white_player then
          if next_result.final_score > best_result.final_score then
            ⟨some state, next_result.final_score⟩
          else best_result
        else
          if next_result.final_score < best_result.final_score then
            ⟨some state, next_result.final_score⟩
          else best_result)
      ⟨none, if game_state.is_white_player then -50 else 50⟩

/-- Translation of `MinMaxBot::FindBestMove(game_state, depth)`, for `depth ≤ kMaxDepth`
(the bot enters at depth `0` and recurses with `depth + 1` only while
`depth ≠ kMaxDepth`). -/
def FindBestMove (game_state : GameState) (depth : Nat) : Result :=
  FindBestMoveBelow (kMaxDepth - depth) game_state

/-- Translation of `MinMaxBot::PlayMove`: `none` is the return value `false`; `some s` is the
return value `true` after `UpdateGameState(s)`. -/
def PlayMove (game_state : GameState) : Option GameState :=
  let result := FindBestMove game_state 0
  if result.final_score = 50 ∨ result.final_score = -50 then none
  else result.game_state

/-! ## Vocabulary of the statements and proofs -/

/-- The bit index of a square, as a natural number. -/
def bitIndex (p : Position) : Nat :=
  (GetBitIndexForSquare p.x p.y).toNat

/-- The moves `AddNextMoves` appends for one occupied square. -/
def movesFrom (g : MoveGenerator) (p : Position) : List Move :=
  g.AddJumpMovesFromPosition p (g.AddSimpleMovesFromPosition p [])

/-- The occupied squares in scan order, from index `i`, `n` of them. -/
def occupiedFrom (g : MoveGenerator) (i n : Nat) : List Nat :=
  (List.range' i n).filter
    (fun j => BitBoard.IsPiecePresentAt g.player_piece_set_ (GetPositionForBitIndex (j : Nat)))

/-- The four moves the generator tries from a square `p`, with the tests it
makes before appending each. -/
def IsMoveFrom (g : MoveGenerator) (p : Position) (m : Move) : Prop :=
  m.start = p ∧
  ((m.end_ = ⟨p.x + 1, p.y + g.ydiff_⟩ ∧ g.CanMoveToPosition m.end_ = true) ∨
   (m.end_ = ⟨p.x - 1, p.y + g.ydiff_⟩ ∧ g.CanMoveToPosition m.end_ = true) ∨
   (m.end_ = ⟨p.x + 1 + 1, p.y + g.ydiff_ + g.ydiff_⟩ ∧ g.CanMoveToPosition m.end_ = true ∧
      BitBoard.IsPiecePresentAt g.opponent_piece_set_ ⟨p.x + 1, p.y + g.ydiff_⟩ = true) ∨
   (m.end_ = ⟨p.x + -1 + -1, p.y + g.ydiff_ + g.ydiff_⟩ ∧ g.CanMoveToPosition m.end_ = true ∧
      BitBoard.IsPiecePresentAt g.opponent_piece_set_ ⟨p.x + -1, p.y + g.ydiff_⟩ = true))

/-- The piece set of the side to move. -/
def ownSet (b : BitBoard) (side : Bool) : Nat :=
  if side then b.white_piece_set_ else b.black_piece_set_

/-- The piece set of the other side. -/
def oppSet (b : BitBoard) (side : Bool) : Nat :=
  if side then b.black_piece_set_ else b.white_piece_set_

/-- The forward direction of a side: `+1` for White, `-1` for Black. -/
def forward (side : Bool) : Int :=
  if side then 1 else -1

/-- A destination the generator accepts: inside the board and with its bit
clear in both piece sets. -/
def InRangeEmpty (b : BitBoard) (e : Position) : Prop :=
  (0 ≤ e.x ∧ e.x < 8 ∧ 0 ≤ e.y ∧ e.y < 8) ∧
    b.white_piece_set_.testBit (bitIndex e) = false ∧
    b.black_piece_set_.testBit (bitIndex e) = false

/-- The four shapes of a generated move, with the facts the generator has
checked for each. -/
inductive GeneratedShape (b : BitBoard) (side : Bool) (m : Move) : Prop
  | step (dx : Int) (hdx : dx = 1 ∨ dx = -1)
      (hend : m.end_ = ⟨m.start.x + dx, m.start.y + forward side⟩)
      (hjump : m.IsJump = false)
  | jump (dx : Int) (hdx : dx = 1 ∨ dx = -1)
      (hend : m.end_ = ⟨m.start.x + 2 * dx, m.start.y + 2 * forward side⟩)
      (hjump : m.IsJump = true)
      (hmid : m.FillJumpPosition = ⟨m.start.x + dx, m.start.y + forward side⟩)
      (hkill : (oppSet b side).testBit (bitIndex m.FillJumpPosition) = true)

/-- Number of set bits among the lowest `w` bits. -/
def popCount (w n : Nat) : Nat :=
  ∑ i ∈ Finset.range w, (n.testBit i).toNat

/-- The update of `best_result` made in the loop of `FindBestMove` for a
successor `state` valued `score`. -/
def updateBest (is_white_player : Bool) (best_result : Result) (state : GameState)
    (score : Int) : Result :=
  if is_white_player then
    if score > best_result.final_score then ⟨some state, score⟩ else best_result
  else
    if score < best_result.final_score then ⟨some state, score⟩ else best_result

/-- The value `FindBestMove` gives to a successor when called at `depth`. -/
def successorValue (depth : Nat) (state : GameState) : Int :=
  if depth = kMaxDepth then GameScore state.board
  else (FindBestMove state (depth + 1)).final_score

/-- The initial `final_score` of a node: `-50` for White, `50` for Black. -/
def sentinel (gs : GameState) : Int :=
  if gs.is_white_player then -50 else 50

/-- Invariant of the loop of `FindBestMove`: either `best_result` is still
unassigned with the sentinel as score, or its state is the successor of the
node by one of the candidate moves and its score is strictly on the mover's
side of the sentinel. -/
def BestInv (gs : GameState) (cands : List Move) (r : Result) : Prop :=
  (r.game_state = none ∧ r.final_score = sentinel gs) ∨
    ((∃ m ∈ cands, r.game_state = some (ApplyMove gs m)) ∧
      (if gs.is_white_player then sentinel gs < r.final_score
        else r.final_score < sentinel gs))

/-- The moves the claim C4 describes for `side` on `board`: the start is the
square of a set bit of the side's mask, and the end is either one step
diagonally forward onto an in-range empty square, or two steps diagonally
forward onto an in-range empty square over a square holding an opponent
piece. -/
def IsPseudoLegal (board : BitBoard) (side : Bool) (m : Move) : Prop :=
  (∃ i, i < 32 ∧ (if side then board.white_piece_set_ else board.black_piece_set_).testBit i = true ∧
    m.start = GetPositionForBitIndex (i : Nat)) ∧
  ∃ dx : Int, (dx = 1 ∨ dx = -1) ∧
    ((m.end_ = ⟨m.start.x + dx, m.start.y + (if side then 1 else -1)⟩ ∧
        InRangeEmpty board m.end_) ∨
     (m.end_ = ⟨m.start.x + 2 * dx, m.start.y + 2 * (if side then 1 else -1)⟩ ∧
        InRangeEmpty board m.end_ ∧
        (if side then board.black_piece_set_ else board.white_piece_set_).testBit
          (bitIndex ⟨m.start.x + dx, m.start.y + (if side then 1 else -1)⟩) = true))

/-- Boards reached from `b0` by applying generated moves, of either side at
each step. -/
inductive Reachable (b0 : BitBoard) : BitBoard → Prop
  | root : Reachable b0 b0
  | move (b : BitBoard) (side : Bool) (m : Move) :
      Reachable b0 b → m ∈ generate b side → Reachable b0 (b.ApplyMove side m)

/-- The squares at which the loop of `AddNextMoves` runs its body, from the
loop header alone, `for (; position.y < 8; IncrementPosition(&position))`, on
the same budget. -/
def scanTrace : Nat → Position → List Position
  | 0, _ => []
  | budget + 1, position =>
    if position.y < 8 then position :: scanTrace budget (IncrementPosition position) else []

/-- The four moves tried from a square, in the order of the source: step to
`x + 1`, step to `x - 1`, jump to `x + 2`, jump to `x - 2`. -/
def candidateMoves (side : Bool) (p : Position) : List Move :=
  [⟨p, ⟨p.x + 1, p.y + forward side⟩⟩, ⟨p, ⟨p.x - 1, p.y + forward side⟩⟩,
   ⟨p, ⟨p.x + 2, p.y + 2 * forward side⟩⟩, ⟨p, ⟨p.x - 2, p.y + 2 * forward side⟩⟩]

/-- The calls `ApplyMove(game_state, next_moves[i], &state)` made by
`FindBestMove` and by its recursive calls, as pairs of the input state and
the move, in the order they are made; the first argument is
`kMaxDepth - depth` as in `FindBestMoveBelow`. -/
def applyMoveCalls : Nat → GameState → List (GameState × Move)
  | 0, game_state =>
    (generate game_state.board game_state.is_white_player).map (fun move => (game_state, move))
  | below + 1, game_state =>
    (generate game_state.board game_state.is_white_player).flatMap
      (fun move => (game_state, move) :: applyMoveCalls below (ApplyMove game_state move))

/-- The comparison of the loop of `FindBestMove`: score `a` replaces the best
score `b` when it is greater, for White to move, or smaller, for Black to
move. -/
def Better (is_white_player : Bool) (a b : Int) : Bool :=
  if is_white_player then decide (a > b) else decide (a < b)

/-- What the entry point hands back to the host from the state after
`PlayMove`: the white mask, the black mask and `is_jump`. -/
def surfaced (s : GameState) : Nat × Nat × Bool :=
  (s.board.white_piece_set_, s.board.black_piece_set_, s.is_jump)

/-- The part of a state the search reads or hands back: board, side to move
and `is_jump` (all but `last_jump_position`). -/
def stateCore (s : GameState) : BitBoard × Bool × Bool :=
  (s.board, s.is_white_player, s.is_jump)

/-- Two results with the same score and, when assigned, states equal up to
`last_jump_position`. -/
def SameResult (r1 r2 : Result) : Prop :=
  r1.final_score = r2.final_score ∧
    r1.game_state.map stateCore = r2.game_state.map stateCore

/-- The half-turn of the board of claim C19: `(x, y)` goes to
`(7 - x, 7 - y)`. -/
def rotate (p : Position) : Position :=
  ⟨7 - p.x, 7 - p.y⟩

/-- The half-turn of a move: both squares rotated. -/
def rotateMove (m : Move) : Move :=
  ⟨rotate m.start, rotate m.end_⟩

/-- The reversal of the 32 bits of a mask: bit `i` of the result is bit
`31 - i` of the argument. -/
def reverseBits32 (n : Nat) : Nat :=
  (List.range 32).foldl (fun acc i => acc ||| (if n.testBit (31 - i) then 2 ^ i else 0)) 0

/-- A move `m1` of White after which Black is to move and has a reply `m2`
that hands the move back to White and after which every move `m3` of White
hands the move to Black and leaves Black with a move. -/
@[reducible]
def HasSafeReply (gs : GameState) (m1 : Move) : Prop :=
  (ApplyMove gs m1).is_white_player = false ∧
  ∃ m2 ∈ generate (ApplyMove gs m1).board (ApplyMove gs m1).is_white_player,
    (ApplyMove (ApplyMove gs m1) m2).is_white_player = true ∧
    ∀ m3 ∈ generate (ApplyMove (ApplyMove gs m1) m2).board
        (ApplyMove (ApplyMove gs m1) m2).is_white_player,
      (ApplyMove (ApplyMove (ApplyMove gs m1) m2) m3).is_white_player = false ∧
      generate (ApplyMove (ApplyMove (ApplyMove gs m1) m2) m3).board
        (ApplyMove (ApplyMove (ApplyMove gs m1) m2) m3).is_white_player ≠ []

/-- The minimax value of a node over `n` plies, as the textbooks define it:
the static evaluation `GameScore` of the node's own board at `n = 0`;
otherwise the greatest (White to move) or least (Black to move) value over
`n - 1` plies of the successors by the generated moves, starting from the
sentinel `-50` (White) or `50` (Black), which is the value of a node without
a move. -/
def minimaxValue : Nat → GameState → Int
  | 0, s => GameScore s.board
  | n + 1, s =>
    if s.is_white_player then
      ((generate s.board s.is_white_player).map
        (fun m => minimaxValue n (ApplyMove s m))).foldl max (-50)
    else
      ((generate s.board s.is_white_player).map
        (fun m => minimaxValue n (ApplyMove s m))).foldl min 50

/-- The loop of `FindBestMove` at a node, for a given valuation of the
successors: generate the moves of the side to move, apply each, and keep the
first successor whose value strictly improves on the best so far, from the
sentinel. -/
def chooseWith (value : GameState → Int) (gs : GameState) : Result :=
  (generate gs.board gs.is_white_player).foldl
    (fun best_result move =>
      updateBest gs.is_white_player best_result (ApplyMove gs move)
        (value (ApplyMove gs move)))
    ⟨none, if gs.is_white_player then -50 else 50⟩

/-! ## Squares, bit indices and masks -/

theorem isWithinBoard_iff (p : Position) :
    BitBoard.IsWithinBoard p = true ↔ 0 ≤ p.x ∧ p.x < 8 ∧ 0 ≤ p.y ∧ p.y < 8 := by
  simp [BitBoard.IsWithinBoard, BitBoard.IsWithinBoardXY, BitBoard.kBoardSize, and_assoc]

theorem bitIndex_lt (p : Position) (h : BitBoard.IsWithinBoard p = true) :
    bitIndex p < 32 := by
  obtain ⟨hx0, hx8, hy0, hy8⟩ := (isWithinBoard_iff p).1 h
  unfold bitIndex GetBitIndexForSquare
  rw [Int.tdiv_eq_ediv hx0 (by norm_num)]
  omega

theorem bitIndex_eq (p : Position) (h : BitBoard.IsWithinBoard p = true) :
    (bitIndex p : Int) = p.y * 4 + p.x / 2 := by
  obtain ⟨hx0, hx8, hy0, hy8⟩ := (isWithinBoard_iff p).1 h
  unfold bitIndex GetBitIndexForSquare
  rw [Int.tdiv_eq_ediv hx0 (by norm_num)]
  omega

theorem getPositionMask_eq (p : Position) (h : BitBoard.IsWithinBoard p = true) :
    p.GetPositionMask = 2 ^ bitIndex p := by
  have hlt := bitIndex_lt p h
  unfold Position.GetPositionMask GetPositionMaskForIndex kUnsignedRange
  rw [Nat.one_shiftLeft]
  exact Nat.mod_eq_of_lt (Nat.pow_lt_pow_right (by norm_num) hlt)

theorem isPiecePresent_two_pow (piece_set i : Nat) :
    BitBoard.IsPiecePresent piece_set (2 ^ i) = piece_set.testBit i := by
  unfold BitBoard.IsPiecePresent
  rw [Nat.and_two_pow]
  cases h : piece_set.testBit i <;> simp

theorem isPiecePresentAt_eq (piece_set : Nat) (p : Position)
    (h : BitBoard.IsWithinBoard p = true) :
    BitBoard.IsPiecePresentAt piece_set p = piece_set.testBit (bitIndex p) := by
  unfold BitBoard.IsPiecePresentAt
  rw [getPositionMask_eq p h, isPiecePresent_two_pow]

theorem isEmptySquare_eq (b : BitBoard) (p : Position)
    (h : BitBoard.IsWithinBoard p = true) :
    b.IsEmptySquare p =
      (!b.white_piece_set_.testBit (bitIndex p) && !b.black_piece_set_.testBit (bitIndex p)) := by
  unfold BitBoard.IsEmptySquare BitBoard.IsEmptySquareMask
  rw [getPositionMask_eq p h, isPiecePresent_two_pow, isPiecePresent_two_pow]

/-- What `GetPositionForBitIndex` returns on the 32 indices of the board. -/
theorem getPositionForBitIndex_facts (i : Nat) (hi : i < 32) :
    BitBoard.IsWithinBoard (GetPositionForBitIndex i) = true ∧
    (GetPositionForBitIndex i).y = ((i / 4 : Nat) : Int) ∧
    ((GetPositionForBitIndex i).x + (GetPositionForBitIndex i).y) % 2 = 0 ∧
    bitIndex (GetPositionForBitIndex i) = i := by
  interval_cases i <;> decide

/-- The squares the engine plays on: inside the board with `x + y` even. -/
theorem eq_getPositionForBitIndex (p : Position) (h : BitBoard.IsWithinBoard p = true)
    (hpar : (p.x + p.y) % 2 = 0) : GetPositionForBitIndex (bitIndex p) = p := by
  obtain ⟨hx0, hx8, hy0, hy8⟩ := (isWithinBoard_iff p).1 h
  obtain ⟨x, y⟩ := p
  simp only at hx0 hx8 hy0 hy8 hpar
  interval_cases x <;> interval_cases y <;> first | (exfalso; revert hpar; decide) | decide

/-- The function `IncrementPosition` steps from the square of index `i` to the square of
index `i + 1`; from index `31` it leaves the board at `y = 8`. -/
theorem incrementPosition_getPosition (i : Nat) (hi : i < 32) :
    IncrementPosition (GetPositionForBitIndex i) = GetPositionForBitIndex ((i + 1 : Nat) : Int) := by
  interval_cases i <;> decide

/-! ## The scan of `AddNextMoves` -/

theorem addMoves_eq_append (g : MoveGenerator) (p : Position) (moves : List Move) :
    g.AddJumpMovesFromPosition p (g.AddSimpleMovesFromPosition p moves) =
      moves ++ movesFrom g p := by
  unfold movesFrom MoveGenerator.AddJumpMovesFromPosition
    MoveGenerator.AddSimpleMovesFromPosition MoveGenerator.MaybeAddJump
    MoveGenerator.MaybeAddSimpleMove
  simp only []
  split_ifs <;> simp

theorem addNextMovesLoop_eq (g : MoveGenerator) (n : Nat) :
    ∀ (i budget : Nat) (moves : List Move), i + n = 32 → n < budget →
      g.AddNextMovesLoop budget (GetPositionForBitIndex (i : Nat)) moves =
        moves ++ (occupiedFrom g i n).flatMap
          (fun j => movesFrom g (GetPositionForBitIndex (j : Nat))) := by
  induction n with
  | zero =>
    intro i budget moves hi hb
    obtain ⟨b, rfl⟩ : ∃ b, budget = b + 1 := ⟨budget - 1, by omega⟩
    have h32 : i = 32 := by omega
    subst h32
    have h8 : ¬ (GetPositionForBitIndex ((32 : Nat) : Int)).y < 8 := by decide
    rw [MoveGenerator.AddNextMovesLoop, if_neg h8]
    simp [occupiedFrom]
  | succ n ih =>
    intro i budget moves hi hb
    obtain ⟨b, rfl⟩ : ∃ b, budget = b + 1 := ⟨budget - 1, by omega⟩
    have hi32 : i < 32 := by omega
    obtain ⟨hw, -, -, -⟩ := getPositionForBitIndex_facts i hi32
    have hy : (GetPositionForBitIndex (i : Nat)).y < 8 := ((isWithinBoard_iff _).1 hw).2.2.2
    rw [MoveGenerator.AddNextMovesLoop, if_pos hy, incrementPosition_getPosition i hi32]
    have hocc : occupiedFrom g i (n + 1) =
        (if BitBoard.IsPiecePresentAt g.player_piece_set_ (GetPositionForBitIndex (i : Nat))
          then [i] else []) ++ occupiedFrom g (i + 1) n := by
      unfold occupiedFrom
      rw [List.range'_succ, List.filter_cons]
      split_ifs <;> simp
    rw [hocc]
    cases hp : BitBoard.IsPiecePresentAt g.player_piece_set_ (GetPositionForBitIndex (i : Nat))
    · simp only [Bool.not_false, if_true]
      rw [ih (i + 1) b moves (by omega) (by omega)]
      simp
    · simp only [Bool.not_true, Bool.false_eq_true, if_false]
      rw [addMoves_eq_append, ih (i + 1) b _ (by omega) (by omega)]
      simp

/-- The iteration budget of `AddNextMoves` is never used up: any larger budget
gives the same list. -/
theorem AddNextMovesLoop_budget (g : MoveGenerator) (k : Nat) (moves : List Move) :
    g.AddNextMovesLoop (33 + k) ⟨0, 0⟩ moves = g.AddNextMoves moves := by
  have h0 : (⟨0, 0⟩ : Position) = GetPositionForBitIndex ((0 : Nat) : Int) := by decide
  unfold MoveGenerator.AddNextMoves
  rw [h0, addNextMovesLoop_eq g 32 0 (33 + k) moves (by omega) (by omega),
    addNextMovesLoop_eq g 32 0 33 moves (by omega) (by omega)]

theorem generate_eq (b : BitBoard) (side : Bool) :
    generate b side =
      (occupiedFrom (MoveGenerator.SetPlayer b side) 0 32).flatMap
        (fun j => movesFrom (MoveGenerator.SetPlayer b side) (GetPositionForBitIndex (j : Nat))) := by
  have h0 : (⟨0, 0⟩ : Position) = GetPositionForBitIndex ((0 : Nat) : Int) := by decide
  unfold generate MoveGenerator.AddNextMoves
  rw [h0, addNextMovesLoop_eq _ 32 0 33 [] (by omega) (by omega)]
  simp

theorem mem_maybeAddSimpleMove (g : MoveGenerator) (mv m : Move) (moves : List Move) :
    m ∈ g.MaybeAddSimpleMove mv moves ↔
      m ∈ moves ∨ (m = mv ∧ g.CanMoveToPosition mv.end_ = true) := by
  unfold MoveGenerator.MaybeAddSimpleMove
  split_ifs with h <;> simp [h]

theorem mem_maybeAddJump (g : MoveGenerator) (s : Position) (xdiff : Int) (m : Move)
    (moves : List Move) :
    m ∈ g.MaybeAddJump s xdiff moves ↔
      m ∈ moves ∨
        (m = ⟨s, ⟨s.x + xdiff + xdiff, s.y + g.ydiff_ + g.ydiff_⟩⟩ ∧
          g.CanMoveToPosition ⟨s.x + xdiff + xdiff, s.y + g.ydiff_ + g.ydiff_⟩ = true ∧
          BitBoard.IsPiecePresentAt g.opponent_piece_set_ ⟨s.x + xdiff, s.y + g.ydiff_⟩ = true) := by
  unfold MoveGenerator.MaybeAddJump
  simp only []
  split_ifs with h1 h2 <;> simp_all

theorem mem_movesFrom (g : MoveGenerator) (p : Position) (m : Move) :
    m ∈ movesFrom g p ↔ IsMoveFrom g p m := by
  obtain ⟨s, e⟩ := m
  unfold movesFrom IsMoveFrom MoveGenerator.AddJumpMovesFromPosition
    MoveGenerator.AddSimpleMovesFromPosition
  simp only [mem_maybeAddJump, mem_maybeAddSimpleMove, List.not_mem_nil, false_or,
    Move.mk.injEq]
  constructor
  · rintro (((⟨⟨rfl, rfl⟩, h⟩ | ⟨⟨rfl, rfl⟩, h⟩) | ⟨⟨rfl, rfl⟩, h⟩) | ⟨⟨rfl, rfl⟩, h⟩)
    · exact ⟨rfl, Or.inl ⟨rfl, h⟩⟩
    · exact ⟨rfl, Or.inr (Or.inl ⟨rfl, h⟩)⟩
    · exact ⟨rfl, Or.inr (Or.inr (Or.inl ⟨rfl, h⟩))⟩
    · exact ⟨rfl, Or.inr (Or.inr (Or.inr ⟨rfl, h⟩))⟩
  · rintro ⟨rfl, (⟨rfl, h⟩ | ⟨rfl, h⟩ | ⟨rfl, h⟩ | ⟨rfl, h⟩)⟩
    · exact Or.inl (Or.inl (Or.inl ⟨⟨rfl, rfl⟩, h⟩))
    · exact Or.inl (Or.inl (Or.inr ⟨⟨rfl, rfl⟩, h⟩))
    · exact Or.inl (Or.inr ⟨⟨rfl, rfl⟩, h⟩)
    · exact Or.inr ⟨⟨rfl, rfl⟩, h⟩

theorem mem_generate (b : BitBoard) (side : Bool) (m : Move) :
    m ∈ generate b side ↔
      ∃ i, i < 32 ∧
        BitBoard.IsPiecePresentAt (MoveGenerator.SetPlayer b side).player_piece_set_
          (GetPositionForBitIndex (i : Nat)) = true ∧
        IsMoveFrom (MoveGenerator.SetPlayer b side) (GetPositionForBitIndex (i : Nat)) m := by
  rw [generate_eq, List.mem_flatMap]
  simp only [occupiedFrom, List.mem_filter, List.mem_range'_1, mem_movesFrom]
  constructor
  · rintro ⟨i, ⟨⟨-, hi⟩, hp⟩, hm⟩
    exact ⟨i, by omega, hp, hm⟩
  · rintro ⟨i, hi, hp, hm⟩
    exact ⟨i, ⟨⟨by omega, by omega⟩, hp⟩, hm⟩

/-! ## Facts about generated moves -/

theorem setPlayer_bitboard (b : BitBoard) (side : Bool) :
    (MoveGenerator.SetPlayer b side).bitboard_ = b := by
  cases side <;> rfl

theorem setPlayer_player (b : BitBoard) (side : Bool) :
    (MoveGenerator.SetPlayer b side).player_piece_set_ = ownSet b side := by
  cases side <;> rfl

theorem setPlayer_opponent (b : BitBoard) (side : Bool) :
    (MoveGenerator.SetPlayer b side).opponent_piece_set_ = oppSet b side := by
  cases side <;> rfl

theorem setPlayer_ydiff (b : BitBoard) (side : Bool) :
    (MoveGenerator.SetPlayer b side).ydiff_ = forward side := by
  cases side <;> rfl

theorem forward_cases (side : Bool) : forward side = 1 ∨ forward side = -1 := by
  cases side <;> simp [forward]

theorem canMoveToPosition_iff (b : BitBoard) (side : Bool) (e : Position) :
    (MoveGenerator.SetPlayer b side).CanMoveToPosition e = true ↔ InRangeEmpty b e := by
  unfold MoveGenerator.CanMoveToPosition InRangeEmpty
  rw [setPlayer_bitboard, Bool.and_eq_true, ← isWithinBoard_iff]
  constructor
  · rintro ⟨hw, he⟩
    rw [isEmptySquare_eq b e hw] at he
    simpa [hw] using he
  · rintro ⟨hw, h1, h2⟩
    rw [isEmptySquare_eq b e hw]
    simp [hw, h1, h2]

/-- Membership in `generate`, in terms of bits: the start square is the square
of a set bit of the mover, and the move is one of the four the generator
tries, having passed its tests. -/
theorem mem_generate_iff (b : BitBoard) (side : Bool) (m : Move) :
    m ∈ generate b side ↔
      ∃ i, i < 32 ∧ (ownSet b side).testBit i = true ∧
        m.start = GetPositionForBitIndex (i : Nat) ∧
        ((m.end_ = ⟨m.start.x + 1, m.start.y + forward side⟩ ∧ InRangeEmpty b m.end_) ∨
         (m.end_ = ⟨m.start.x - 1, m.start.y + forward side⟩ ∧ InRangeEmpty b m.end_) ∨
         (m.end_ = ⟨m.start.x + 2, m.start.y + 2 * forward side⟩ ∧ InRangeEmpty b m.end_ ∧
            (oppSet b side).testBit (bitIndex ⟨m.start.x + 1, m.start.y + forward side⟩) = true) ∨
         (m.end_ = ⟨m.start.x - 2, m.start.y + 2 * forward side⟩ ∧ InRangeEmpty b m.end_ ∧
            (oppSet b side).testBit (bitIndex ⟨m.start.x - 1, m.start.y + forward side⟩) = true)) := by
  rw [mem_generate]
  refine exists_congr fun i => and_congr_right fun hi => ?_
  obtain ⟨hw, -, -, hidx⟩ := getPositionForBitIndex_facts i hi
  obtain ⟨hx0, hx8, hy0, hy8⟩ := (isWithinBoard_iff _).1 hw
  rw [setPlayer_player, isPiecePresentAt_eq _ _ hw, hidx]
  refine and_congr_right fun _ => ?_
  unfold IsMoveFrom
  simp only [setPlayer_ydiff, setPlayer_opponent, canMoveToPosition_iff]
  have e1 : ∀ p : Position, (⟨p.x + 1 + 1, p.y + forward side + forward side⟩ : Position) =
      ⟨p.x + 2, p.y + 2 * forward side⟩ := by
    intro p; congr 1 <;> ring
  have e2 : ∀ p : Position, (⟨p.x + -1 + -1, p.y + forward side + forward side⟩ : Position) =
      ⟨p.x - 2, p.y + 2 * forward side⟩ := by
    intro p; congr 1 <;> ring
  have e3 : ∀ p : Position, (⟨p.x + -1, p.y + forward side⟩ : Position) =
      ⟨p.x - 1, p.y + forward side⟩ := by
    intro p; congr 1
  simp only [e1, e2, e3]
  constructor
  · rintro ⟨hs, h⟩
    refine ⟨hs, ?_⟩
    rw [hs]
    rcases h with h | h | ⟨h1, h2, h3⟩ | ⟨h1, h2, h3⟩
    · exact Or.inl h
    · exact Or.inr (Or.inl h)
    · refine Or.inr (Or.inr (Or.inl ⟨h1, h2, ?_⟩))
      have hin : BitBoard.IsWithinBoard
          ⟨(GetPositionForBitIndex (i : Nat)).x + 1,
            (GetPositionForBitIndex (i : Nat)).y + forward side⟩ = true := by
        rw [isWithinBoard_iff]
        obtain ⟨⟨a, b', c, d⟩, -, -⟩ := h2
        rw [h1] at a b' c d
        simp only at a b' c d ⊢
        rcases forward_cases side with hf | hf <;> rw [hf] at c d ⊢ <;> omega
      rwa [isPiecePresentAt_eq _ _ hin] at h3
    · refine Or.inr (Or.inr (Or.inr ⟨h1, h2, ?_⟩))
      have hin : BitBoard.IsWithinBoard
          ⟨(GetPositionForBitIndex (i : Nat)).x - 1,
            (GetPositionForBitIndex (i : Nat)).y + forward side⟩ = true := by
        rw [isWithinBoard_iff]
        obtain ⟨⟨a, b', c, d⟩, -, -⟩ := h2
        rw [h1] at a b' c d
        simp only at a b' c d ⊢
        rcases forward_cases side with hf | hf <;> rw [hf] at c d ⊢ <;> omega
      rwa [isPiecePresentAt_eq _ _ hin] at h3
  · rintro ⟨hs, h⟩
    refine ⟨hs, ?_⟩
    rw [hs] at h
    rcases h with h | h | ⟨h1, h2, h3⟩ | ⟨h1, h2, h3⟩
    · exact Or.inl h
    · exact Or.inr (Or.inl h)
    · refine Or.inr (Or.inr (Or.inl ⟨h1, h2, ?_⟩))
      have hin : BitBoard.IsWithinBoard
          ⟨(GetPositionForBitIndex (i : Nat)).x + 1,
            (GetPositionForBitIndex (i : Nat)).y + forward side⟩ = true := by
        rw [isWithinBoard_iff]
        obtain ⟨⟨a, b', c, d⟩, -, -⟩ := h2
        rw [h1] at a b' c d
        simp only at a b' c d ⊢
        rcases forward_cases side with hf | hf <;> rw [hf] at c d ⊢ <;> omega
      rwa [isPiecePresentAt_eq _ _ hin]
    · refine Or.inr (Or.inr (Or.inr ⟨h1, h2, ?_⟩))
      have hin : BitBoard.IsWithinBoard
          ⟨(GetPositionForBitIndex (i : Nat)).x - 1,
            (GetPositionForBitIndex (i : Nat)).y + forward side⟩ = true := by
        rw [isWithinBoard_iff]
        obtain ⟨⟨a, b', c, d⟩, -, -⟩ := h2
        rw [h1] at a b' c d
        simp only at a b' c d ⊢
        rcases forward_cases side with hf | hf <;> rw [hf] at c d ⊢ <;> omega
      rwa [isPiecePresentAt_eq _ _ hin]

/-! ## Shape of a generated move -/

/-- A generated simple step: one file sideways, one rank forward. -/
theorem isJump_step (p : Position) (dx dy : Int) (h : dx = 1 ∨ dx = -1) :
    Move.IsJump ⟨p, ⟨p.x + dx, dy⟩⟩ = false := by
  unfold Move.IsJump
  rcases h with rfl | rfl <;> simp

theorem isJump_jump (p : Position) (dx dy : Int) (h : dx = 2 ∨ dx = -2) :
    Move.IsJump ⟨p, ⟨p.x + dx, dy⟩⟩ = true := by
  unfold Move.IsJump
  rcases h with rfl | rfl <;> simp

/-- The midpoint computed by `FillJumpPosition` for a jump of two files and
two ranks is the square in between. -/
theorem fillJumpPosition_jump (p : Position) (dx dy : Int) :
    Move.FillJumpPosition ⟨p, ⟨p.x + 2 * dx, p.y + 2 * dy⟩⟩ = ⟨p.x + dx, p.y + dy⟩ := by
  unfold Move.FillJumpPosition
  have h1 : p.x + 2 * dx + p.x = 2 * (p.x + dx) := by ring
  have h2 : p.y + 2 * dy + p.y = 2 * (p.y + dy) := by ring
  simp only [h1, h2]
  rw [Int.mul_tdiv_cancel_left _ (by norm_num), Int.mul_tdiv_cancel_left _ (by norm_num)]

theorem generatedShape_of_mem (b : BitBoard) (side : Bool) (m : Move)
    (hm : m ∈ generate b side) :
    (∃ i, i < 32 ∧ (ownSet b side).testBit i = true ∧
      m.start = GetPositionForBitIndex (i : Nat)) ∧
    InRangeEmpty b m.end_ ∧ GeneratedShape b side m := by
  obtain ⟨i, hi, hbit, hs, h⟩ := (mem_generate_iff b side m).1 hm
  refine ⟨⟨i, hi, hbit, hs⟩, ?_⟩
  obtain ⟨s, e⟩ := m
  simp only at hs h ⊢
  rcases h with ⟨he, hr⟩ | ⟨he, hr⟩ | ⟨he, hr, hk⟩ | ⟨he, hr, hk⟩
  · refine ⟨hr, GeneratedShape.step 1 (Or.inl rfl) he ?_⟩
    rw [he]; exact isJump_step s 1 _ (Or.inl rfl)
  · refine ⟨hr, GeneratedShape.step (-1) (Or.inr rfl) he ?_⟩
    rw [he]; exact isJump_step s (-1) _ (Or.inr rfl)
  · have hmid : Move.FillJumpPosition ⟨s, e⟩ = ⟨s.x + 1, s.y + forward side⟩ := by
      rw [he]; exact fillJumpPosition_jump s 1 (forward side)
    refine ⟨hr, GeneratedShape.jump 1 (Or.inl rfl) he ?_ hmid ?_⟩
    · rw [he]; exact isJump_jump s 2 _ (Or.inl rfl)
    · rw [hmid]; exact hk
  · have hmid : Move.FillJumpPosition ⟨s, e⟩ = ⟨s.x + -1, s.y + forward side⟩ := by
      rw [he]
      have := fillJumpPosition_jump s (-1) (forward side)
      simpa [sub_eq_add_neg] using this
    refine ⟨hr, GeneratedShape.jump (-1) (Or.inr rfl) ?_ ?_ hmid ?_⟩
    · rw [he]; simp [sub_eq_add_neg]
    · rw [he]; exact isJump_jump s (-2) _ (Or.inr rfl)
    · rw [hmid]; exact hk

/-! ## The generated list has no repetition -/

theorem nodup_maybeAddSimpleMove (g : MoveGenerator) (mv : Move) (moves : List Move)
    (hn : moves.Nodup) (hnot : mv ∉ moves) : (g.MaybeAddSimpleMove mv moves).Nodup := by
  unfold MoveGenerator.MaybeAddSimpleMove
  split_ifs
  · exact List.Nodup.append hn (List.nodup_singleton mv) (by simpa using hnot)
  · exact hn

theorem nodup_maybeAddJump (g : MoveGenerator) (s : Position) (xdiff : Int)
    (moves : List Move) (hn : moves.Nodup)
    (hnot : (⟨s, ⟨s.x + xdiff + xdiff, s.y + g.ydiff_ + g.ydiff_⟩⟩ : Move) ∉ moves) :
    (g.MaybeAddJump s xdiff moves).Nodup := by
  unfold MoveGenerator.MaybeAddJump
  simp only []
  split_ifs
  · exact hn
  · exact hn
  · exact List.Nodup.append hn (List.nodup_singleton _) (by simpa using hnot)

theorem nodup_movesFrom (g : MoveGenerator) (p : Position) : (movesFrom g p).Nodup := by
  unfold movesFrom MoveGenerator.AddJumpMovesFromPosition
    MoveGenerator.AddSimpleMovesFromPosition
  refine nodup_maybeAddJump g p (-1) _ (nodup_maybeAddJump g p 1 _
    (nodup_maybeAddSimpleMove g _ _ (nodup_maybeAddSimpleMove g _ _ List.nodup_nil ?_) ?_) ?_) ?_
  · simp
  · simp only [mem_maybeAddSimpleMove, List.not_mem_nil, false_or, Move.mk.injEq,
      Position.mk.injEq]
    omega
  · simp only [mem_maybeAddSimpleMove, List.not_mem_nil, false_or, Move.mk.injEq,
      Position.mk.injEq]
    omega
  · simp only [mem_maybeAddJump, mem_maybeAddSimpleMove, List.not_mem_nil, false_or,
      Move.mk.injEq, Position.mk.injEq]
    omega

theorem nodup_generate (b : BitBoard) (side : Bool) : (generate b side).Nodup := by
  rw [generate_eq, List.nodup_flatMap]
  refine ⟨fun j _ => nodup_movesFrom _ _, ?_⟩
  have hnd : (occupiedFrom (MoveGenerator.SetPlayer b side) 0 32).Nodup :=
    List.Nodup.filter _ (List.nodup_range' 0 32)
  refine List.Pairwise.imp_of_mem ?_ hnd
  intro i j hi hj hne
  have hi32 : i < 32 := by
    have := (List.mem_filter.1 hi).1
    rw [List.mem_range'_1] at this; omega
  have hj32 : j < 32 := by
    have := (List.mem_filter.1 hj).1
    rw [List.mem_range'_1] at this; omega
  intro m hmi hmj
  have h1 := ((mem_movesFrom _ _ m).1 hmi).1
  have h2 := ((mem_movesFrom _ _ m).1 hmj).1
  have h3 := (getPositionForBitIndex_facts i hi32).2.2.2
  have h4 := (getPositionForBitIndex_facts j hj32).2.2.2
  rw [← h1] at h3
  rw [← h2] at h4
  exact hne (h3.symm.trans h4)

/-! ## `CountBits` is the population count -/

theorem popCount_succ (w n : Nat) :
    popCount (w + 1) n = popCount w (n / 2) + (n.testBit 0).toNat := by
  unfold popCount
  rw [Finset.sum_range_succ']
  simp only [Nat.testBit_succ]

theorem popCount_le (w n : Nat) : popCount w n ≤ w := by
  unfold popCount
  calc ∑ i ∈ Finset.range w, (n.testBit i).toNat
      ≤ ∑ _i ∈ Finset.range w, 1 := Finset.sum_le_sum (fun i _ => Bool.toNat_le _)
    _ = w := by simp

theorem popCount_zero (w : Nat) : popCount w 0 = 0 := by
  simp [popCount]

/-- Clearing the lowest set bit removes one from the population count. -/
theorem popCount_and_pred (w : Nat) :
    ∀ n, n ≠ 0 → n < 2 ^ w → popCount w (n &&& (n - 1)) + 1 = popCount w n := by
  induction w with
  | zero => intro n h0 hlt; simp at hlt; omega
  | succ w ih =>
    intro n h0 hlt
    rw [popCount_succ, popCount_succ, Nat.and_div_two, Nat.testBit_zero, Nat.testBit_zero]
    have hbit : (n &&& (n - 1)) % 2 = 0 := by
      have h := Nat.testBit_and n (n - 1) 0
      rw [Nat.testBit_zero, Nat.testBit_zero, Nat.testBit_zero] at h
      have hf : (decide (n % 2 = 1) && decide ((n - 1) % 2 = 1)) = false := by
        rcases Nat.mod_two_eq_zero_or_one n with hn | hn
        · simp [hn]
        · have h1 : (n - 1) % 2 = 0 := by omega
          simp [h1]
      rw [hf] at h
      have hne : ¬ ((n &&& (n - 1)) % 2 = 1) := of_decide_eq_false h
      omega
    rcases Nat.mod_two_eq_zero_or_one n with hn | hn
    · have hdiv : (n - 1) / 2 = n / 2 - 1 := by omega
      have hne : n / 2 ≠ 0 := by omega
      have hlt2 : n / 2 < 2 ^ w := by rw [pow_succ] at hlt; omega
      rw [hdiv]
      have := ih (n / 2) hne hlt2
      simp [hbit, hn]
      omega
    · have hdiv : (n - 1) / 2 = n / 2 := by omega
      rw [hdiv, Nat.and_self]
      simp [hbit, hn]

/-- With a budget above the population count, the loop of `CountBits` adds the
population count to `count` and leaves through its own test. -/
theorem countBitsLoop_eq (w : Nat) :
    ∀ budget piece_set count, piece_set < 2 ^ w → popCount w piece_set < budget →
      BitBoard.CountBitsLoop budget piece_set count = count + popCount w piece_set := by
  intro budget
  induction budget with
  | zero => intro ps c _ h; omega
  | succ budget ih =>
    intro ps c hlt hb
    rw [BitBoard.CountBitsLoop]
    split_ifs with h0
    · have hstep := popCount_and_pred w ps h0 hlt
      have hle : ps &&& (ps - 1) < 2 ^ w := lt_of_le_of_lt Nat.and_le_left hlt
      rw [ih _ _ hle (by omega)]
      omega
    · have : ps = 0 := by simpa using h0
      rw [this, popCount_zero]; rfl

theorem countBits_eq (piece_set : Nat) (h : piece_set < 2 ^ 32) :
    BitBoard.CountBits piece_set = popCount 32 piece_set := by
  unfold BitBoard.CountBits
  rw [countBitsLoop_eq 32 33 piece_set 0 h (by have := popCount_le 32 piece_set; omega)]
  simp

/-- The iteration budget of `CountBits` is never used up on a 32-bit word. -/
theorem CountBitsLoop_budget (piece_set k : Nat) (h : piece_set < 2 ^ 32) :
    BitBoard.CountBitsLoop (33 + k) piece_set 0 = BitBoard.CountBits piece_set := by
  rw [countBits_eq piece_set h,
    countBitsLoop_eq 32 (33 + k) piece_set 0 h (by have := popCount_le 32 piece_set; omega)]
  simp

/-- Two words that agree on every bit but `i`, where one has the bit and the
other not, differ by one in population count. -/
theorem popCount_flip (w a a' i : Nat) (hi : i < w)
    (hsame : ∀ j, j ≠ i → a'.testBit j = a.testBit j)
    (ha : a.testBit i = false) (ha' : a'.testBit i = true) :
    popCount w a' = popCount w a + 1 := by
  unfold popCount
  have hmem : i ∈ Finset.range w := Finset.mem_range.2 hi
  rw [← Finset.add_sum_erase _ _ hmem, ← Finset.add_sum_erase _ (fun i => (a.testBit i).toNat) hmem]
  have : ∑ x ∈ (Finset.range w).erase i, (a'.testBit x).toNat =
      ∑ x ∈ (Finset.range w).erase i, (a.testBit x).toNat := by
    refine Finset.sum_congr rfl fun j hj => ?_
    rw [hsame j (Finset.ne_of_mem_erase hj)]
  rw [this, ha, ha']
  simp
  omega

theorem testBit_setPiece (piece_set i j : Nat) :
    (BitBoard.SetPiece (2 ^ i) piece_set).testBit j = (piece_set.testBit j || decide (i = j)) := by
  unfold BitBoard.SetPiece
  rw [Nat.testBit_or, Nat.testBit_two_pow]

theorem testBit_clearPiece (piece_set i j : Nat) (hi : i < 32) :
    (BitBoard.ClearPiece (2 ^ i) piece_set).testBit j =
      (piece_set.testBit j && decide (j < 32) && !decide (i = j)) := by
  unfold BitBoard.ClearPiece kUnsignedRange
  rw [Nat.testBit_and, Nat.testBit_xor, Nat.testBit_two_pow, Nat.testBit_two_pow_sub_one]
  by_cases h1 : j < 32 <;> by_cases h2 : i = j <;> simp [h1, h2]
  omega

theorem setPiece_lt (piece_set i : Nat) (h : piece_set < 2 ^ 32) (hi : i < 32) :
    BitBoard.SetPiece (2 ^ i) piece_set < 2 ^ 32 := by
  unfold BitBoard.SetPiece
  exact Nat.or_lt_two_pow h (Nat.pow_lt_pow_right (by norm_num) hi)

theorem clearPiece_lt (piece_set mask : Nat) (h : piece_set < 2 ^ 32) :
    BitBoard.ClearPiece mask piece_set < 2 ^ 32 :=
  lt_of_le_of_lt Nat.and_le_left h

theorem testBit_of_lt (n j : Nat) (h : n < 2 ^ 32) (hj : n.testBit j = true) : j < 32 := by
  by_contra hge
  have h2 : 2 ^ 32 ≤ 2 ^ j := Nat.pow_le_pow_right (by norm_num) (by omega)
  have := Nat.testBit_implies_ge hj
  omega

/-! ## The search -/

/-- The body of `FindBestMove` as the source writes it, for the depths the bot
uses. -/
theorem FindBestMove_unfold (game_state : GameState) (depth : Nat) (h : depth ≤ kMaxDepth) :
    FindBestMove game_state depth =
      (generate game_state.board game_state.is_white_player).foldl
        (fun best_result move =>
          updateBest game_state.is_white_player best_result (ApplyMove game_state move)
            (successorValue depth (ApplyMove game_state move)))
        ⟨none, if game_state.is_white_player then -50 else 50⟩ := by
  unfold kMaxDepth at h
  unfold FindBestMove successorValue updateBest kMaxDepth
  interval_cases depth <;> rfl

theorem bestInv_updateBest (gs : GameState) (cands : List Move) (r : Result) (m : Move)
    (score : Int) (hm : m ∈ cands) (hr : BestInv gs cands r) :
    BestInv gs cands (updateBest gs.is_white_player r (ApplyMove gs m) score) := by
  unfold updateBest
  unfold BestInv at hr ⊢
  cases hw : gs.is_white_player
  · simp only [hw, Bool.false_eq_true, if_false] at hr ⊢
    split_ifs with hlt
    · refine Or.inr ⟨⟨m, hm, rfl⟩, ?_⟩
      rcases hr with ⟨-, h⟩ | ⟨-, h⟩ <;> simp only at hlt ⊢ <;> omega
    · exact hr
  · simp only [hw, if_true] at hr ⊢
    split_ifs with hlt
    · refine Or.inr ⟨⟨m, hm, rfl⟩, ?_⟩
      rcases hr with ⟨-, h⟩ | ⟨-, h⟩ <;> simp only at hlt ⊢ <;> omega
    · exact hr

theorem bestInv_foldl (gs : GameState) (cands : List Move) (value : GameState → Int) :
    ∀ (moves : List Move) (init : Result), (∀ m ∈ moves, m ∈ cands) → BestInv gs cands init →
      BestInv gs cands (moves.foldl
        (fun best_result move =>
          updateBest gs.is_white_player best_result (ApplyMove gs move)
            (value (ApplyMove gs move))) init) := by
  intro moves
  induction moves with
  | nil => intro init _ h; exact h
  | cons mv rest ih =>
    intro init hsub h
    rw [List.foldl_cons]
    exact ih _ (fun m hm => hsub m (List.mem_cons_of_mem _ hm))
      (bestInv_updateBest gs cands init mv _ (hsub mv (List.mem_cons_self _ _)) h)

theorem bestInv_findBestMove (gs : GameState) (depth : Nat) (h : depth ≤ kMaxDepth) :
    BestInv gs (generate gs.board gs.is_white_player) (FindBestMove gs depth) := by
  rw [FindBestMove_unfold gs depth h]
  exact bestInv_foldl gs _ (successorValue depth) _ _ (fun _ hm => hm) (Or.inl ⟨rfl, rfl⟩)

/-- The return value `true` of `PlayMove` is `some`: a score other than the
two sentinels comes with an assigned state. -/
theorem playMove_isSome_iff (gs : GameState) :
    (PlayMove gs).isSome = true ↔
      ¬ ((FindBestMove gs 0).final_score = 50 ∨ (FindBestMove gs 0).final_score = -50) := by
  have hinv := bestInv_findBestMove gs 0 (Nat.zero_le _)
  unfold PlayMove
  simp only []
  split_ifs with hs
  · constructor
    · intro h; cases h
    · intro h; exact absurd hs h
  · refine ⟨fun _ => hs, fun _ => ?_⟩
    rcases hinv with ⟨-, h⟩ | ⟨⟨m, -, h⟩, -⟩
    · exfalso
      apply hs
      rw [h]; unfold sentinel
      cases gs.is_white_player <;> simp
    · rw [h]; rfl

/-- A state returned by `PlayMove` is the successor of the root by a generated
move. -/
theorem playMove_eq_applyMove (gs gs' : GameState) (h : PlayMove gs = some gs') :
    ∃ m ∈ generate gs.board gs.is_white_player, gs' = ApplyMove gs m := by
  have hinv := bestInv_findBestMove gs 0 (Nat.zero_le _)
  unfold PlayMove at h
  simp only [] at h
  split_ifs at h with hs
  rcases hinv with ⟨hn, -⟩ | ⟨⟨m, hm, hst⟩, -⟩
  · rw [hn] at h; cases h
  · rw [hst] at h
    exact ⟨m, hm, (Option.some.inj h).symm⟩

theorem generate_nil_of_own_zero (b : BitBoard) (side : Bool) (h : ownSet b side = 0) :
    generate b side = [] := by
  rw [generate_eq]
  have : occupiedFrom (MoveGenerator.SetPlayer b side) 0 32 = [] := by
    unfold occupiedFrom
    rw [List.filter_eq_nil_iff]
    intro j _
    simp [BitBoard.IsPiecePresentAt, BitBoard.IsPiecePresent, setPlayer_player, h]
  rw [this]; rfl

/-! ## Claims on `PlayMove` at a root with or without moves -/

/-- Claim C1 (evaluation at two failing inputs).  On the board of scenario S2,
a single white man on square 8 with White to move, the generator returns one
move (to square 12), the root call of `FindBestMove` returns the score `50`
that the moveless Black reply started from, and `PlayMove` returns `false`.
With a white man on square 23 and a black man on square 27, White's only move
is the jump to square 30, after which White is to move again and has no move:
the root score stays `-50` and `PlayMove` returns `false`. -/
theorem playMove_false_with_moves :
    ((0x100 : Nat) &&& 0 = 0 ∧
      generate ⟨0x100, 0⟩ true = [⟨⟨0, 2⟩, ⟨1, 3⟩⟩] ∧
      (FindBestMove ⟨⟨0x100, 0⟩, ⟨0, 0⟩, true, false⟩ 0).final_score = 50 ∧
      PlayMove ⟨⟨0x100, 0⟩, ⟨0, 0⟩, true, false⟩ = none) ∧
    ((2 ^ 23 : Nat) &&& 2 ^ 27 = 0 ∧
      generate ⟨2 ^ 23, 2 ^ 27⟩ true = [⟨⟨7, 5⟩, ⟨5, 7⟩⟩] ∧
      (FindBestMove ⟨⟨2 ^ 23, 2 ^ 27⟩, ⟨0, 0⟩, true, false⟩ 0).final_score = -50 ∧
      PlayMove ⟨⟨2 ^ 23, 2 ^ 27⟩, ⟨0, 0⟩, true, false⟩ = none) := by
  decide

/-- Claim C2.  When the generator returns the empty list for the side to move at
the root, `PlayMove` returns `false`; a board without white men and White to
move (S6), and the empty board (S1), are such roots. -/
theorem playMove_none_of_no_moves :
    (∀ gs : GameState, generate gs.board gs.is_white_player = [] → PlayMove gs = none) ∧
    (∀ (black : Nat) (p : Position) (j : Bool),
      generate ⟨0, black⟩ true = [] ∧ PlayMove ⟨⟨0, black⟩, p, true, j⟩ = none) := by
  have key : ∀ gs : GameState, generate gs.board gs.is_white_player = [] →
      PlayMove gs = none := by
    intro gs h
    unfold PlayMove
    rw [FindBestMove_unfold gs 0 (Nat.zero_le _), h]
    cases gs.is_white_player <;> simp
  refine ⟨key, fun black p j => ?_⟩
  have hg : generate ⟨0, black⟩ true = [] := generate_nil_of_own_zero _ _ rfl
  exact ⟨hg, key ⟨⟨0, black⟩, p, true, j⟩ hg⟩

/-- Witness for C2: scenario S1, the empty board with White to move. -/
theorem playMove_none_of_no_moves_witness :
    generate ⟨0, 0⟩ true = [] ∧ PlayMove ⟨⟨0, 0⟩, ⟨0, 0⟩, true, false⟩ = none :=
  ⟨by decide, playMove_none_of_no_moves.1 ⟨⟨0, 0⟩, ⟨0, 0⟩, true, false⟩ (by decide)⟩

/-! ## Applying a generated move -/

theorem ownSet_applyMove (b : BitBoard) (side : Bool) (m : Move) :
    ownSet (b.ApplyMove side m) side =
      BitBoard.SetPiece m.end_.GetPositionMask
        (BitBoard.ClearPiece m.start.GetPositionMask (ownSet b side)) := by
  unfold BitBoard.ApplyMove ownSet
  cases side <;> cases m.IsJump <;> simp

theorem oppSet_applyMove (b : BitBoard) (side : Bool) (m : Move) :
    oppSet (b.ApplyMove side m) side =
      if m.IsJump = true then
        BitBoard.ClearPiece m.FillJumpPosition.GetPositionMask (oppSet b side)
      else oppSet b side := by
  unfold BitBoard.ApplyMove oppSet
  cases side <;> cases m.IsJump <;> simp

theorem testBit_oppSet_of_empty (b : BitBoard) (side : Bool) (e : Nat)
    (hw : b.white_piece_set_.testBit e = false) (hb : b.black_piece_set_.testBit e = false) :
    (ownSet b side).testBit e = false ∧ (oppSet b side).testBit e = false := by
  cases side <;> simp [ownSet, oppSet, hw, hb]

/-- The masks a generated move is applied with: single bits inside the word,
the start bit set for the mover, the end bit clear for both sides and, for a
jump, the midpoint bit set for the opponent. -/
theorem generated_masks (b : BitBoard) (side : Bool) (m : Move) (hm : m ∈ generate b side) :
    ∃ s e, s < 32 ∧ e < 32 ∧
      m.start.GetPositionMask = 2 ^ s ∧ m.end_.GetPositionMask = 2 ^ e ∧
      (ownSet b side).testBit s = true ∧
      (ownSet b side).testBit e = false ∧ (oppSet b side).testBit e = false ∧
      (m.IsJump = true → ∃ k, k < 32 ∧ m.FillJumpPosition.GetPositionMask = 2 ^ k ∧
        (oppSet b side).testBit k = true) := by
  obtain ⟨⟨i, hi, hbit, hs⟩, ⟨hr, hew, heb⟩, hshape⟩ := generatedShape_of_mem b side m hm
  obtain ⟨hsw, -, -, hidx⟩ := getPositionForBitIndex_facts i hi
  rw [← hs] at hsw hidx
  have hewin : BitBoard.IsWithinBoard m.end_ = true := (isWithinBoard_iff _).2 hr
  obtain ⟨h1, h2⟩ := testBit_oppSet_of_empty b side _ hew heb
  refine ⟨bitIndex m.start, bitIndex m.end_, by omega, bitIndex_lt _ hewin,
    getPositionMask_eq _ hsw, getPositionMask_eq _ hewin, by rw [hidx]; exact hbit, h1, h2, ?_⟩
  intro hj
  cases hshape with
  | step dx hdx hend hjump => rw [hjump] at hj; cases hj
  | jump dx hdx hend hjump hmid hkill =>
    have hmw : BitBoard.IsWithinBoard m.FillJumpPosition = true := by
      rw [hmid, isWithinBoard_iff]
      obtain ⟨a1, a2, a3, a4⟩ := (isWithinBoard_iff _).1 hsw
      obtain ⟨c1, c2, c3, c4⟩ := hr
      rw [hend] at c1 c2 c3 c4
      simp only at c1 c2 c3 c4 ⊢
      rcases forward_cases side with hf | hf <;> rw [hf] at c3 c4 ⊢ <;> omega
    exact ⟨bitIndex m.FillJumpPosition, bitIndex_lt _ hmw, getPositionMask_eq _ hmw, hkill⟩

theorem and_eq_zero_iff_testBit (a b : Nat) :
    a &&& b = 0 ↔ ∀ j, a.testBit j = true → b.testBit j = false := by
  constructor
  · intro h j ha
    have := Nat.testBit_and a b j
    rw [h, Nat.zero_testBit, ha] at this
    simpa using this.symm
  · intro h
    apply Nat.eq_of_testBit_eq
    intro j
    rw [Nat.testBit_and, Nat.zero_testBit]
    cases ha : a.testBit j
    · rfl
    · simp [h j ha]

/-- Moving a bit of `own` to a square empty in `opp`, while `opp` loses at
most bits, keeps the two sets disjoint. -/
theorem disjoint_after_move (own opp opp' s e : Nat) (hs : s < 32)
    (hd : own &&& opp = 0) (he : opp.testBit e = false)
    (hsub : ∀ j, opp'.testBit j = true → opp.testBit j = true) :
    BitBoard.SetPiece (2 ^ e) (BitBoard.ClearPiece (2 ^ s) own) &&& opp' = 0 := by
  rw [and_eq_zero_iff_testBit] at hd ⊢
  intro j hj
  rw [testBit_setPiece, testBit_clearPiece _ _ _ hs] at hj
  cases ho : opp'.testBit j
  · rfl
  · exfalso
    have hoj := hsub j ho
    by_cases hej : e = j
    · subst hej; rw [he] at hoj; cases hoj
    · have hown : own.testBit j = true := by
        simp only [hej, decide_False, Bool.or_false, Bool.and_eq_true] at hj
        exact hj.1.1
      have := hd j hown
      rw [this] at hoj; cases hoj

theorem countBits_clearPiece (ps i : Nat) (hps : ps < 2 ^ 32) (hi : i < 32)
    (hbit : ps.testBit i = true) :
    BitBoard.CountBits (BitBoard.ClearPiece (2 ^ i) ps) + 1 = BitBoard.CountBits ps := by
  rw [countBits_eq _ (clearPiece_lt ps _ hps), countBits_eq _ hps]
  refine (popCount_flip 32 _ ps i hi ?_ ?_ hbit).symm
  · intro j hj
    rw [testBit_clearPiece _ _ _ hi]
    cases hpj : ps.testBit j
    · rfl
    · have := testBit_of_lt ps j hps hpj
      simp [this, Ne.symm hj]
  · rw [testBit_clearPiece _ _ _ hi]; simp

theorem countBits_setPiece (ps i : Nat) (hps : ps < 2 ^ 32) (hi : i < 32)
    (hbit : ps.testBit i = false) :
    BitBoard.CountBits (BitBoard.SetPiece (2 ^ i) ps) = BitBoard.CountBits ps + 1 := by
  rw [countBits_eq _ (setPiece_lt ps i hps hi), countBits_eq _ hps]
  refine popCount_flip 32 ps _ i hi ?_ hbit ?_
  · intro j hj
    rw [testBit_setPiece]; simp [Ne.symm hj]
  · rw [testBit_setPiece]; simp

/-- Moving a man from a set bit to a clear bit keeps the count. -/
theorem countBits_move (ps s e : Nat) (hps : ps < 2 ^ 32) (hs : s < 32) (he : e < 32)
    (hbs : ps.testBit s = true) (hbe : ps.testBit e = false) :
    BitBoard.CountBits (BitBoard.SetPiece (2 ^ e) (BitBoard.ClearPiece (2 ^ s) ps)) =
      BitBoard.CountBits ps := by
  have h1 := countBits_clearPiece ps s hps hs hbs
  have hclear : (BitBoard.ClearPiece (2 ^ s) ps).testBit e = false := by
    rw [testBit_clearPiece _ _ _ hs, hbe]; simp
  have h2 := countBits_setPiece _ e (clearPiece_lt ps (2 ^ s) hps) he hclear
  omega

/-! ## Claims on the generator -/

/-- Claim C3 (generator soundness).  Every move of `generate board side`, for any
two masks and either side, ends on a square inside the board
(`0 ≤ x < 8`, `0 ≤ y < 8`) that is empty in both masks, and when the move is a
jump the midpoint computed by `FillJumpPosition` holds a piece of the
opponent. -/
theorem generate_sound (b : BitBoard) (side : Bool) (m : Move)
    (hm : m ∈ generate b side) :
    (0 ≤ m.end_.x ∧ m.end_.x < 8 ∧ 0 ≤ m.end_.y ∧ m.end_.y < 8) ∧
    BitBoard.IsWithinBoard m.end_ = true ∧
    b.IsEmptySquare m.end_ = true ∧
    b.white_piece_set_.testBit (bitIndex m.end_) = false ∧
    b.black_piece_set_.testBit (bitIndex m.end_) = false ∧
    (m.IsJump = true →
      BitBoard.IsPiecePresent (if side then b.black_piece_set_ else b.white_piece_set_)
        m.FillJumpPosition.GetPositionMask = true) := by
  obtain ⟨-, ⟨hr, hew, heb⟩, -⟩ := generatedShape_of_mem b side m hm
  obtain ⟨s, e, -, -, -, -, -, -, -, hjump⟩ := generated_masks b side m hm
  have hewin : BitBoard.IsWithinBoard m.end_ = true := (isWithinBoard_iff _).2 hr
  refine ⟨hr, hewin, ?_, hew, heb, ?_⟩
  · rw [isEmptySquare_eq b _ hewin, hew, heb]; rfl
  · intro hj
    obtain ⟨k, -, hmask, hbit⟩ := hjump hj
    rw [hmask, isPiecePresent_two_pow]
    exact hbit

/-- Witness for C3: White's jump from square 9 over the black man on square 13
to square 18. -/
theorem generate_sound_witness :
    (⟨⟨2, 2⟩, ⟨4, 4⟩⟩ : Move) ∈ generate ⟨2 ^ 9, 2 ^ 13⟩ true ∧
    BitBoard.IsPiecePresent (2 ^ 13)
      (Move.FillJumpPosition ⟨⟨2, 2⟩, ⟨4, 4⟩⟩).GetPositionMask = true :=
  ⟨by decide,
    (generate_sound ⟨2 ^ 9, 2 ^ 13⟩ true ⟨⟨2, 2⟩, ⟨4, 4⟩⟩ (by decide)).2.2.2.2.2 (by decide)⟩

/-- Claim C4 (generator completeness).  For every board and either side,
`generate board side` has no repeated move and contains exactly the moves of
`IsPseudoLegal`: from the square of each set bit of the side's mask, the
simple steps to `(x ± 1, y + fwd)` that are in range and empty, and the jumps
to `(x ± 2, y + 2 fwd)` that are in range and empty over an opponent piece at
`(x ± 1, y + fwd)`, with `fwd = 1` for White and `-1` for Black.  A simple
step is in the list whether or not a jump exists.  From the opening position
the list for White has seven moves. -/
theorem generate_complete :
    (∀ (b : BitBoard) (side : Bool),
      (generate b side).Nodup ∧ ∀ m, m ∈ generate b side ↔ IsPseudoLegal b side m) ∧
    (generate ⟨0x00000FFF, 0xFFF00000⟩ true).length = 7 := by
  refine ⟨fun b side => ⟨nodup_generate b side, fun m => ?_⟩, by decide⟩
  rw [mem_generate_iff]
  unfold IsPseudoLegal
  have hown : (if side then b.white_piece_set_ else b.black_piece_set_) = ownSet b side := rfl
  have hopp : (if side then b.black_piece_set_ else b.white_piece_set_) = oppSet b side := rfl
  have hfwd : (if side = true then (1 : Int) else -1) = forward side := rfl
  rw [hown, hopp, hfwd]
  constructor
  · rintro ⟨i, hi, hbit, hs, h⟩
    refine ⟨⟨i, hi, hbit, hs⟩, ?_⟩
    rcases h with ⟨he, hr⟩ | ⟨he, hr⟩ | ⟨he, hr, hk⟩ | ⟨he, hr, hk⟩
    · exact ⟨1, Or.inl rfl, Or.inl ⟨he, hr⟩⟩
    · exact ⟨-1, Or.inr rfl, Or.inl ⟨he, hr⟩⟩
    · exact ⟨1, Or.inl rfl, Or.inr ⟨by simpa using he, hr, hk⟩⟩
    · exact ⟨-1, Or.inr rfl, Or.inr ⟨by simpa [sub_eq_add_neg] using he, hr, hk⟩⟩
  · rintro ⟨⟨i, hi, hbit, hs⟩, dx, hdx, h⟩
    refine ⟨i, hi, hbit, hs, ?_⟩
    rcases hdx with rfl | rfl
    · rcases h with ⟨he, hr⟩ | ⟨he, hr, hk⟩
      · exact Or.inl ⟨he, hr⟩
      · exact Or.inr (Or.inr (Or.inl ⟨by simpa using he, hr, hk⟩))
    · rcases h with ⟨he, hr⟩ | ⟨he, hr, hk⟩
      · exact Or.inr (Or.inl ⟨he, hr⟩)
      · exact Or.inr (Or.inr (Or.inr ⟨by simpa [sub_eq_add_neg] using he, hr, hk⟩))

/-- Claim C10 (direction constraint).  Every move generated for White is a simple
step (`|end.x - start.x| = 1`) with `end.y = start.y + 1` or a jump with
`end.y = start.y + 2`; every move generated for Black is a simple step with
`end.y = start.y - 1` or a jump with `end.y = start.y - 2`.  In particular no
generated move goes backward. -/
theorem generate_direction (b : BitBoard) (m : Move) :
    (m ∈ generate b true →
      ((m.end_.x - m.start.x).natAbs = 1 ∨ m.IsJump = true) ∧
      ((m.end_.x - m.start.x).natAbs = 1 → m.end_.y = m.start.y + 1) ∧
      (m.IsJump = true → m.end_.y = m.start.y + 2) ∧
      m.start.y < m.end_.y) ∧
    (m ∈ generate b false →
      ((m.end_.x - m.start.x).natAbs = 1 ∨ m.IsJump = true) ∧
      ((m.end_.x - m.start.x).natAbs = 1 → m.end_.y = m.start.y - 1) ∧
      (m.IsJump = true → m.end_.y = m.start.y - 2) ∧
      m.end_.y < m.start.y) := by
  constructor
  · intro hm
    obtain ⟨-, -, hshape⟩ := generatedShape_of_mem b true m hm
    cases hshape with
    | step dx hdx hend hjump =>
      have hx : m.end_.x = m.start.x + dx := by rw [hend]
      have hy : m.end_.y = m.start.y + 1 := by rw [hend]; rfl
      refine ⟨Or.inl ?_, fun _ => hy, fun hj => ?_, by omega⟩
      · rw [hx]; rcases hdx with rfl | rfl <;> simp
      · rw [hjump] at hj; cases hj
    | jump dx hdx hend hjump hmid hkill =>
      have hx : m.end_.x = m.start.x + 2 * dx := by rw [hend]
      have hy : m.end_.y = m.start.y + 2 := by rw [hend]; rfl
      refine ⟨Or.inr hjump, fun h1 => ?_, fun _ => hy, by omega⟩
      rw [hx] at h1; rcases hdx with rfl | rfl <;> simp at h1
  · intro hm
    obtain ⟨-, -, hshape⟩ := generatedShape_of_mem b false m hm
    cases hshape with
    | step dx hdx hend hjump =>
      have hx : m.end_.x = m.start.x + dx := by rw [hend]
      have hy : m.end_.y = m.start.y - 1 := by rw [hend]; rfl
      refine ⟨Or.inl ?_, fun _ => hy, fun hj => ?_, by omega⟩
      · rw [hx]; rcases hdx with rfl | rfl <;> simp
      · rw [hjump] at hj; cases hj
    | jump dx hdx hend hjump hmid hkill =>
      have hx : m.end_.x = m.start.x + 2 * dx := by rw [hend]
      have hy : m.end_.y = m.start.y - 2 := by rw [hend]; rfl
      refine ⟨Or.inr hjump, fun h1 => ?_, fun _ => hy, by omega⟩
      rw [hx] at h1; rcases hdx with rfl | rfl <;> simp at h1

/-- Witness for C10: White's jump from square 9 to square 18 and Black's jump
from square 22 to square 13 on the rotated board. -/
theorem generate_direction_witness :
    ((⟨⟨2, 2⟩, ⟨4, 4⟩⟩ : Move) ∈ generate ⟨2 ^ 9, 2 ^ 13⟩ true ∧ (4 : Int) = 2 + 2) ∧
    ((⟨⟨5, 5⟩, ⟨3, 3⟩⟩ : Move) ∈ generate ⟨2 ^ 18, 2 ^ 22⟩ false ∧ (3 : Int) = 5 - 2) :=
  ⟨⟨by decide,
      ((generate_direction ⟨2 ^ 9, 2 ^ 13⟩ ⟨⟨2, 2⟩, ⟨4, 4⟩⟩).1 (by decide)).2.2.1 (by decide)⟩,
    ⟨by decide,
      ((generate_direction ⟨2 ^ 18, 2 ^ 22⟩ ⟨⟨5, 5⟩, ⟨3, 3⟩⟩).2 (by decide)).2.2.1 (by decide)⟩⟩

/-! ## Claims on `BitBoard::ApplyMove` -/

theorem disjoint_applyMove (b : BitBoard) (side : Bool) (m : Move)
    (hd : b.white_piece_set_ &&& b.black_piece_set_ = 0) (hm : m ∈ generate b side) :
    (b.ApplyMove side m).white_piece_set_ &&& (b.ApplyMove side m).black_piece_set_ = 0 := by
  obtain ⟨s, e, hs, he, hms, hme, hbs, hbe, hoe, hjump⟩ := generated_masks b side m hm
  have hd' : ownSet b side &&& oppSet b side = 0 := by
    cases side
    · simpa [ownSet, oppSet, Nat.land_comm] using hd
    · simpa [ownSet, oppSet] using hd
  have hsub : ∀ j, (oppSet (b.ApplyMove side m) side).testBit j = true →
      (oppSet b side).testBit j = true := by
    intro j hj
    rw [oppSet_applyMove] at hj
    split_ifs at hj with hjmp
    · obtain ⟨k, hk, hmk, -⟩ := hjump hjmp
      rw [hmk, testBit_clearPiece _ _ _ hk] at hj
      simp only [Bool.and_eq_true] at hj
      exact hj.1.1
    · exact hj
  have key : ownSet (b.ApplyMove side m) side &&& oppSet (b.ApplyMove side m) side = 0 := by
    rw [ownSet_applyMove, hms, hme]
    exact disjoint_after_move _ _ _ s e hs hd' hoe hsub
  cases side
  · simpa [ownSet, oppSet, Nat.land_comm] using key
  · simpa [ownSet, oppSet] using key

theorem applyMove_board (gs : GameState) (m : Move) :
    (ApplyMove gs m).board = gs.board.ApplyMove gs.is_white_player m := by
  unfold ApplyMove
  split_ifs <;> rfl

/-- Claim C5 (disjointness is preserved).  On a board whose masks are disjoint,
applying a generated move of either side with `BitBoard::ApplyMove` gives a
board whose masks are disjoint; so every board reachable from a disjoint board
through generated moves has disjoint masks, and so has every board returned
by `PlayMove`. -/
theorem applyMove_preserves_disjoint :
    (∀ (b : BitBoard) (side : Bool) (m : Move),
      b.white_piece_set_ &&& b.black_piece_set_ = 0 → m ∈ generate b side →
      (b.ApplyMove side m).white_piece_set_ &&& (b.ApplyMove side m).black_piece_set_ = 0) ∧
    (∀ b0 b : BitBoard, b0.white_piece_set_ &&& b0.black_piece_set_ = 0 → Reachable b0 b →
      b.white_piece_set_ &&& b.black_piece_set_ = 0) ∧
    (∀ gs gs' : GameState,
      gs.board.white_piece_set_ &&& gs.board.black_piece_set_ = 0 → PlayMove gs = some gs' →
      gs'.board.white_piece_set_ &&& gs'.board.black_piece_set_ = 0) := by
  refine ⟨disjoint_applyMove, ?_, ?_⟩
  · intro b0 b h0 hr
    induction hr with
    | root => exact h0
    | move b side m _ hm ih => exact disjoint_applyMove b side m ih hm
  · intro gs gs' h0 hp
    obtain ⟨m, hm, rfl⟩ := playMove_eq_applyMove gs gs' hp
    rw [applyMove_board]
    exact disjoint_applyMove _ _ m h0 hm

/-- Witness for C5: White's jump from square 9 over the black man on square
13. -/
theorem applyMove_preserves_disjoint_witness :
    (BitBoard.ApplyMove ⟨2 ^ 9, 2 ^ 13⟩ true ⟨⟨2, 2⟩, ⟨4, 4⟩⟩).white_piece_set_ &&&
      (BitBoard.ApplyMove ⟨2 ^ 9, 2 ^ 13⟩ true ⟨⟨2, 2⟩, ⟨4, 4⟩⟩).black_piece_set_ = 0 :=
  applyMove_preserves_disjoint.1 ⟨2 ^ 9, 2 ^ 13⟩ true ⟨⟨2, 2⟩, ⟨4, 4⟩⟩ (by decide) (by decide)

/-- Claim C6 (piece loss under jumps).  For 32-bit masks and a jump of
`generate board side`, after `BitBoard::ApplyMove` the mover has as many
pieces as before and the opponent exactly one less. -/
theorem jump_piece_counts (b : BitBoard) (side : Bool) (m : Move)
    (hw : b.white_piece_set_ < 2 ^ 32) (hb : b.black_piece_set_ < 2 ^ 32)
    (hm : m ∈ generate b side) (hj : m.IsJump = true) :
    (side = true →
      (b.ApplyMove side m).NumWhitePieces = b.NumWhitePieces ∧
      (b.ApplyMove side m).NumBlackPieces + 1 = b.NumBlackPieces) ∧
    (side = false →
      (b.ApplyMove side m).NumBlackPieces = b.NumBlackPieces ∧
      (b.ApplyMove side m).NumWhitePieces + 1 = b.NumWhitePieces) := by
  obtain ⟨s, e, hs, he, hms, hme, hbs, hbe, hoe, hjump⟩ := generated_masks b side m hm
  obtain ⟨k, hk, hmk, hbk⟩ := hjump hj
  have hown : ownSet b side < 2 ^ 32 := by cases side <;> simpa [ownSet]
  have hopp : oppSet b side < 2 ^ 32 := by cases side <;> simpa [oppSet]
  have h1 : BitBoard.CountBits (ownSet (b.ApplyMove side m) side) =
      BitBoard.CountBits (ownSet b side) := by
    rw [ownSet_applyMove, hms, hme]
    exact countBits_move _ s e hown hs he hbs hbe
  have h2 : BitBoard.CountBits (oppSet (b.ApplyMove side m) side) + 1 =
      BitBoard.CountBits (oppSet b side) := by
    rw [oppSet_applyMove, if_pos hj, hmk]
    exact countBits_clearPiece _ k hopp hk hbk
  constructor
  · rintro rfl; exact ⟨h1, h2⟩
  · rintro rfl; exact ⟨h1, h2⟩

/-- Witness for C6: White's jump from square 9 over the black man on square
13. -/
theorem jump_piece_counts_witness :
    (BitBoard.ApplyMove ⟨2 ^ 9, 2 ^ 13⟩ true ⟨⟨2, 2⟩, ⟨4, 4⟩⟩).NumWhitePieces =
      BitBoard.NumWhitePieces ⟨2 ^ 9, 2 ^ 13⟩ ∧
    (BitBoard.ApplyMove ⟨2 ^ 9, 2 ^ 13⟩ true ⟨⟨2, 2⟩, ⟨4, 4⟩⟩).NumBlackPieces + 1 =
      BitBoard.NumBlackPieces ⟨2 ^ 9, 2 ^ 13⟩ :=
  (jump_piece_counts ⟨2 ^ 9, 2 ^ 13⟩ true ⟨⟨2, 2⟩, ⟨4, 4⟩⟩ (by decide) (by decide)
    (by decide) (by decide)).1 rfl

/-- Claim C7 (piece conservation under simple moves).  For 32-bit masks and a
simple step (`|end.x - start.x| = 1`) of `generate board side`, after
`BitBoard::ApplyMove` both piece counts are as before and the opponent's mask
is unchanged. -/
theorem step_piece_counts (b : BitBoard) (side : Bool) (m : Move)
    (hw : b.white_piece_set_ < 2 ^ 32) (hb : b.black_piece_set_ < 2 ^ 32)
    (hm : m ∈ generate b side) (hstep : (m.end_.x - m.start.x).natAbs = 1) :
    (b.ApplyMove side m).NumWhitePieces = b.NumWhitePieces ∧
    (b.ApplyMove side m).NumBlackPieces = b.NumBlackPieces ∧
    (side = true → (b.ApplyMove side m).black_piece_set_ = b.black_piece_set_) ∧
    (side = false → (b.ApplyMove side m).white_piece_set_ = b.white_piece_set_) := by
  obtain ⟨s, e, hs, he, hms, hme, hbs, hbe, hoe, -⟩ := generated_masks b side m hm
  have hj : m.IsJump = false := by
    unfold Move.IsJump; rw [hstep]; rfl
  have hown : ownSet b side < 2 ^ 32 := by cases side <;> simpa [ownSet]
  have h1 : BitBoard.CountBits (ownSet (b.ApplyMove side m) side) =
      BitBoard.CountBits (ownSet b side) := by
    rw [ownSet_applyMove, hms, hme]
    exact countBits_move _ s e hown hs he hbs hbe
  have h2 : oppSet (b.ApplyMove side m) side = oppSet b side := by
    rw [oppSet_applyMove, hj]; rfl
  cases side
  · refine ⟨?_, h1, (fun h => by cases h), fun _ => h2⟩
    unfold BitBoard.NumWhitePieces
    exact congrArg BitBoard.CountBits h2
  · refine ⟨h1, ?_, fun _ => h2, (fun h => by cases h)⟩
    unfold BitBoard.NumBlackPieces
    exact congrArg BitBoard.CountBits h2

/-- Witness for C7: the step of the white man on square 8 to square 12. -/
theorem step_piece_counts_witness :
    (BitBoard.ApplyMove ⟨2 ^ 8, 2 ^ 20⟩ true ⟨⟨0, 2⟩, ⟨1, 3⟩⟩).NumWhitePieces = 1 ∧
    (BitBoard.ApplyMove ⟨2 ^ 8, 2 ^ 20⟩ true ⟨⟨0, 2⟩, ⟨1, 3⟩⟩).NumBlackPieces = 1 ∧
    (BitBoard.ApplyMove ⟨2 ^ 8, 2 ^ 20⟩ true ⟨⟨0, 2⟩, ⟨1, 3⟩⟩).black_piece_set_ = 2 ^ 20 :=
  have h := step_piece_counts ⟨2 ^ 8, 2 ^ 20⟩ true ⟨⟨0, 2⟩, ⟨1, 3⟩⟩ (by decide) (by decide)
    (by decide) (by decide)
  ⟨h.1, h.2.1, h.2.2.1 rfl⟩

/-! ## Claims on the coordinate mapping -/

/-- Claim C8 (counterexample).  The square `(1, 0)` is dark in the convention of
the specification (`1 + 0` is odd), yet mapping it to its bit index and back
gives `(0, 0)`. -/
theorem roundtrip_odd_square_fails :
    ((1 : Int) + 0) % 2 = 1 ∧
    GetBitIndexForSquare 1 0 = 0 ∧
    GetXYForBitIndex (GetBitIndexForSquare 1 0) = (0, 0) ∧
    GetXYForBitIndex (GetBitIndexForSquare 1 0) ≠ (1, 0) := by
  decide

/-- Claim C8 (amended).  For every square of the board with `x + y` even, the
squares of the header diagram (rank 0 has files 0, 2, 4, 6),
`GetXYForBitIndex (GetBitIndexForSquare x y) = (x, y)`. -/
theorem roundtrip_even_square (x y : Int) (hx0 : 0 ≤ x) (hx8 : x < 8) (hy0 : 0 ≤ y)
    (hy8 : y < 8) (hpar : (x + y) % 2 = 0) :
    GetXYForBitIndex (GetBitIndexForSquare x y) = (x, y) := by
  interval_cases x <;> interval_cases y <;>
    first | (exfalso; revert hpar; decide) | decide

/-- Witness for C8 (amended): the square `(3, 5)`, of bit index 21. -/
theorem roundtrip_even_square_witness :
    GetBitIndexForSquare 3 5 = 21 ∧ GetXYForBitIndex (GetBitIndexForSquare 3 5) = (3, 5) :=
  ⟨by decide, roundtrip_even_square 3 5 (by decide) (by decide) (by decide) (by decide)
    (by decide)⟩

/-- Claim C9 (round trip from indices).  For every `i` in `0..31`,
`GetXYForBitIndex i` is a square of the board on rank `i / 4`,
`GetBitIndexForSquare` maps it back to `i`, and its mask
`GetPositionMaskForIndex` is `2 ^ i`: bit `i` is set and no other. -/
theorem roundtrip_index (i : Nat) (hi : i ≤ 31) :
    (0 ≤ (GetXYForBitIndex i).1 ∧ (GetXYForBitIndex i).1 < 8 ∧
      0 ≤ (GetXYForBitIndex i).2 ∧ (GetXYForBitIndex i).2 < 8) ∧
    (GetXYForBitIndex i).2 = ((i / 4 : Nat) : Int) ∧
    GetBitIndexForSquare (GetXYForBitIndex i).1 (GetXYForBitIndex i).2 = i ∧
    GetPositionMaskForIndex (GetXYForBitIndex i).1 (GetXYForBitIndex i).2 = 2 ^ i ∧
    ∀ j, (GetPositionMaskForIndex (GetXYForBitIndex i).1 (GetXYForBitIndex i).2).testBit j =
      decide (j = i) := by
  have hmask : GetPositionMaskForIndex (GetXYForBitIndex i).1 (GetXYForBitIndex i).2 = 2 ^ i := by
    interval_cases i <;> decide
  refine ⟨?_, ?_, ?_, hmask, fun j => ?_⟩
  · interval_cases i <;> decide
  · interval_cases i <;> decide
  · interval_cases i <;> decide
  · rw [hmask, Nat.testBit_two_pow]
    by_cases h : i = j
    · simp [h]
    · simp [h, Ne.symm h]

/-- Witness for C9: index 31, the last square `(7, 7)`. -/
theorem roundtrip_index_witness :
    GetXYForBitIndex 31 = (7, 7) ∧ GetPositionMaskForIndex 7 7 = 2 ^ 31 :=
  ⟨by decide, (roundtrip_index 31 (by decide)).2.2.2.1⟩

/-! ## The order of generation -/

theorem scanTrace_eq (n : Nat) :
    ∀ (i budget : Nat), i + n = 32 → n < budget →
      scanTrace budget (GetPositionForBitIndex (i : Nat)) =
        (List.range' i n).map (fun j => GetPositionForBitIndex (j : Nat)) := by
  induction n with
  | zero =>
    intro i budget hi hb
    obtain ⟨b, rfl⟩ : ∃ b, budget = b + 1 := ⟨budget - 1, by omega⟩
    have h32 : i = 32 := by omega
    subst h32
    have h8 : ¬ (GetPositionForBitIndex ((32 : Nat) : Int)).y < 8 := by decide
    rw [scanTrace, if_neg h8]
    rfl
  | succ n ih =>
    intro i budget hi hb
    obtain ⟨b, rfl⟩ : ∃ b, budget = b + 1 := ⟨budget - 1, by omega⟩
    have hi32 : i < 32 := by omega
    obtain ⟨hw, -, -, -⟩ := getPositionForBitIndex_facts i hi32
    have hy : (GetPositionForBitIndex (i : Nat)).y < 8 := ((isWithinBoard_iff _).1 hw).2.2.2
    rw [scanTrace, if_pos hy, incrementPosition_getPosition i hi32,
      ih (i + 1) b (by omega) (by omega), List.range'_succ, List.map_cons]

theorem sublist_flatMap {α β : Type} (f g : α → List β) (h : ∀ a, (f a).Sublist (g a)) :
    ∀ {l1 l2 : List α}, l1.Sublist l2 → (l1.flatMap f).Sublist (l2.flatMap g) := by
  intro l1 l2 hs
  induction hs with
  | slnil => exact List.Sublist.refl _
  | cons a _ ih =>
    rw [List.flatMap_cons]
    exact List.sublist_append_of_sublist_right ih
  | cons₂ a _ ih =>
    rw [List.flatMap_cons, List.flatMap_cons]
    exact List.Sublist.append (h a) ih

theorem maybeAddSimpleMove_sublist (g : MoveGenerator) (mv : Move) (moves l : List Move)
    (h : moves.Sublist l) : (g.MaybeAddSimpleMove mv moves).Sublist (l ++ [mv]) := by
  unfold MoveGenerator.MaybeAddSimpleMove
  split_ifs
  · exact List.Sublist.append h (List.Sublist.refl _)
  · exact List.sublist_append_of_sublist_left h

theorem maybeAddJump_sublist (g : MoveGenerator) (s : Position) (xdiff : Int)
    (moves l : List Move) (h : moves.Sublist l) :
    (g.MaybeAddJump s xdiff moves).Sublist
      (l ++ [⟨s, ⟨s.x + xdiff + xdiff, s.y + g.ydiff_ + g.ydiff_⟩⟩]) := by
  unfold MoveGenerator.MaybeAddJump
  simp only []
  split_ifs
  · exact List.sublist_append_of_sublist_left h
  · exact List.sublist_append_of_sublist_left h
  · exact List.Sublist.append h (List.Sublist.refl _)

theorem movesFrom_sublist (b : BitBoard) (side : Bool) (p : Position) :
    (movesFrom (MoveGenerator.SetPlayer b side) p).Sublist (candidateMoves side p) := by
  have h := maybeAddJump_sublist (MoveGenerator.SetPlayer b side) p (-1) _ _
    (maybeAddJump_sublist (MoveGenerator.SetPlayer b side) p 1 _ _
      (maybeAddSimpleMove_sublist (MoveGenerator.SetPlayer b side)
        ⟨p, ⟨p.x - 1, p.y + (MoveGenerator.SetPlayer b side).ydiff_⟩⟩ _ _
        (maybeAddSimpleMove_sublist (MoveGenerator.SetPlayer b side)
          ⟨p, ⟨p.x + 1, p.y + (MoveGenerator.SetPlayer b side).ydiff_⟩⟩ [] []
          (List.Sublist.refl _))))
  have e : candidateMoves side p =
      [] ++ [⟨p, ⟨p.x + 1, p.y + (MoveGenerator.SetPlayer b side).ydiff_⟩⟩] ++
        [⟨p, ⟨p.x - 1, p.y + (MoveGenerator.SetPlayer b side).ydiff_⟩⟩] ++
        [⟨p, ⟨p.x + 1 + 1, p.y + (MoveGenerator.SetPlayer b side).ydiff_ +
          (MoveGenerator.SetPlayer b side).ydiff_⟩⟩] ++
        [⟨p, ⟨p.x + -1 + -1, p.y + (MoveGenerator.SetPlayer b side).ydiff_ +
          (MoveGenerator.SetPlayer b side).ydiff_⟩⟩] := by
    rw [setPlayer_ydiff]
    unfold candidateMoves
    simp only [List.nil_append, List.cons_append, List.cons.injEq, Move.mk.injEq,
      Position.mk.injEq, true_and, and_true]
    refine ⟨⟨by ring, by ring⟩, ⟨by ring, by ring⟩⟩
  rw [e]
  exact h

theorem start_of_mem_movesFrom (g : MoveGenerator) (p : Position) (m : Move)
    (h : m ∈ movesFrom g p) : m.start = p :=
  ((mem_movesFrom g p m).1 h).1

/-- Claim C11 (deterministic generation order).  The function
`IncrementPosition` maps the square of index `i` to the square of index
`i + 1` for every `i < 31`; the scan of `AddNextMoves`, started at `(0, 0)`,
the square of index 0, runs its body at the squares of indices 0, 1, ..., 31
in that order and then stops, whatever larger budget it is given, and appends
at each occupied one the moves from it; so `generate` is a sublist of the
list of candidate moves taken square by square in index order and, within a
square, in the order step to `x + 1`, step to `x - 1`, jump to `x + 2`, jump
to `x - 2`, and the start squares of `generate` are in non-decreasing index
order. -/
theorem generation_order :
    (∀ i : Nat, i < 31 →
      IncrementPosition (GetPositionForBitIndex (i : Nat)) =
        GetPositionForBitIndex ((i + 1 : Nat) : Int)) ∧
    GetPositionForBitIndex ((0 : Nat) : Int) = ⟨0, 0⟩ ∧
    (∀ k : Nat, scanTrace (33 + k) ⟨0, 0⟩ =
      (List.range 32).map (fun i => GetPositionForBitIndex (i : Nat))) ∧
    (∀ (g : MoveGenerator) (moves : List Move),
      g.AddNextMoves moves =
        moves ++ ((scanTrace 33 ⟨0, 0⟩).filter
          (fun p => BitBoard.IsPiecePresentAt g.player_piece_set_ p)).flatMap
            (fun p => g.AddJumpMovesFromPosition p (g.AddSimpleMovesFromPosition p []))) ∧
    (∀ (b : BitBoard) (side : Bool),
      (generate b side).Sublist
        ((List.range 32).flatMap (fun i => candidateMoves side (GetPositionForBitIndex (i : Nat))))) ∧
    (∀ (b : BitBoard) (side : Bool),
      ((generate b side).map (fun m => bitIndex m.start)).Pairwise (fun i j => i ≤ j)) := by
  have h0 : (⟨0, 0⟩ : Position) = GetPositionForBitIndex ((0 : Nat) : Int) := by decide
  have htrace : ∀ k : Nat, scanTrace (33 + k) ⟨0, 0⟩ =
      (List.range 32).map (fun i => GetPositionForBitIndex (i : Nat)) := by
    intro k
    rw [h0, scanTrace_eq 32 0 (33 + k) (by omega) (by omega), List.range_eq_range']
  refine ⟨fun i hi => incrementPosition_getPosition i (by omega), h0.symm, htrace, ?_, ?_, ?_⟩
  · intro g moves
    have ht := htrace 0
    rw [Nat.add_zero] at ht
    unfold MoveGenerator.AddNextMoves
    rw [ht, h0, addNextMovesLoop_eq g 32 0 33 moves (by omega) (by omega)]
    unfold occupiedFrom movesFrom
    rw [List.range_eq_range', List.filter_map, List.flatMap_map]
    rfl
  · intro b side
    rw [generate_eq, List.range_eq_range']
    exact sublist_flatMap _ _ (fun j => movesFrom_sublist b side _) (List.filter_sublist _)
  · intro b side
    rw [generate_eq, List.pairwise_map, List.pairwise_flatMap]
    have hmem32 : ∀ j ∈ occupiedFrom (MoveGenerator.SetPlayer b side) 0 32, j < 32 := by
      intro j hj
      have := (List.mem_filter.1 hj).1
      rw [List.mem_range'_1] at this
      omega
    have hidx : ∀ j ∈ occupiedFrom (MoveGenerator.SetPlayer b side) 0 32,
        ∀ m ∈ movesFrom (MoveGenerator.SetPlayer b side) (GetPositionForBitIndex (j : Nat)),
          bitIndex m.start = j := by
      intro j hj m hm
      rw [start_of_mem_movesFrom _ _ m hm]
      exact (getPositionForBitIndex_facts j (hmem32 j hj)).2.2.2
    constructor
    · intro j hj
      refine List.pairwise_of_forall_mem_list ?_
      intro m1 h1 m2 h2
      rw [hidx j hj m1 h1, hidx j hj m2 h2]
    · have hsorted : (occupiedFrom (MoveGenerator.SetPlayer b side) 0 32).Pairwise
          (fun i j => i ≤ j) := List.Pairwise.filter _ (List.pairwise_le_range' 0 32)
      refine List.Pairwise.imp_of_mem ?_ hsorted
      intro i j hi hj hij m1 h1 m2 h2
      rw [hidx i hi m1 h1, hidx j hj m2 h2]
      exact hij

/-- Witness for C11: from index 3, the last square of rank 0, the scan steps to
index 4, the first square of rank 1. -/
theorem generation_order_witness :
    IncrementPosition (GetPositionForBitIndex ((3 : Nat) : Int)) =
      GetPositionForBitIndex ((3 + 1 : Nat) : Int) :=
  generation_order.1 3 (by decide)

/-! ## The evaluator -/

theorem toInt32_diff (cw cb : Nat) (hw : cw ≤ 32) (hb : cb ≤ 32) :
    toInt32 ((cw + kUnsignedRange - cb) % kUnsignedRange) = (cw : Int) - (cb : Int) := by
  unfold toInt32 kUnsignedRange
  norm_num
  split_ifs with h <;> omega

theorem gameScore_eq_diff (w b : Nat) (hw : w < 2 ^ 32) (hb : b < 2 ^ 32) :
    GameScore ⟨w, b⟩ = (popCount 32 w : Int) - (popCount 32 b : Int) := by
  unfold GameScore BitBoard.NumWhitePieces BitBoard.NumBlackPieces
  simp only []
  rw [countBits_eq w hw, countBits_eq b hb]
  exact toInt32_diff _ _ (popCount_le 32 w) (popCount_le 32 b)

theorem gameScore_bounds (b : BitBoard) (hw : b.white_piece_set_ < 2 ^ 32)
    (hb : b.black_piece_set_ < 2 ^ 32) : -32 ≤ GameScore b ∧ GameScore b ≤ 32 := by
  have h1 := popCount_le 32 b.white_piece_set_
  have h2 := popCount_le 32 b.black_piece_set_
  have hs := gameScore_eq_diff b.white_piece_set_ b.black_piece_set_ hw hb
  constructor <;> (rw [hs]; omega)

/-- Claim C12 (evaluator).  For 32-bit masks the loop of `CountBits` leaves
through its own test, whatever larger budget it is given, and returns the
population count; `GameScore` is the signed difference of the population
counts of the white and the black mask; so it lies in `[-32, 32]` and is
neither of the sentinels `50` and `-50`. -/
theorem gameScore_eq_popCount_diff (w b : Nat) (hw : w < 2 ^ 32) (hb : b < 2 ^ 32) :
    (∀ k, BitBoard.CountBitsLoop (33 + k) w 0 = popCount 32 w) ∧
    BitBoard.CountBits w = popCount 32 w ∧
    GameScore ⟨w, b⟩ = (popCount 32 w : Int) - (popCount 32 b : Int) ∧
    (-32 ≤ GameScore ⟨w, b⟩ ∧ GameScore ⟨w, b⟩ ≤ 32) ∧
    GameScore ⟨w, b⟩ ≠ 50 ∧ GameScore ⟨w, b⟩ ≠ -50 := by
  have h1 := popCount_le 32 w
  have h2 := popCount_le 32 b
  have hs := gameScore_eq_diff w b hw hb
  refine ⟨fun k => ?_, countBits_eq w hw, hs, ?_, ?_, ?_⟩
  · rw [CountBitsLoop_budget w k hw, countBits_eq w hw]
  · rw [hs]; omega
  · rw [hs]; omega
  · rw [hs]; omega

/-- Witness for C12: the opening position, twelve men each, scores `0`. -/
theorem gameScore_eq_popCount_diff_witness :
    GameScore ⟨0x00000FFF, 0xFFF00000⟩ =
      (popCount 32 0x00000FFF : Int) - (popCount 32 0xFFF00000 : Int) :=
  (gameScore_eq_popCount_diff 0x00000FFF 0xFFF00000 (by decide) (by decide)).2.2.1

/-! ## Scenarios -/

/-- Claim C13 (counterexample).  In scenario S2, a single white man on square 8
with White to move, `generate` returns one move and not two; no generated
move ends on square 13. -/
theorem generate_s2_not_two_moves :
    (generate ⟨0x00000100, 0⟩ true).length ≠ 2 ∧
    ∀ m ∈ generate ⟨0x00000100, 0⟩ true, bitIndex m.end_ ≠ 13 := by
  decide

/-- Claim C13 (amended).  In scenario S2 `generate` returns exactly one move:
the step from square 8, `(0, 2)`, to square 12, `(1, 3)`; the other forward
square `(-1, 3)` is off the board. -/
theorem generate_s2 :
    generate ⟨0x00000100, 0⟩ true = [⟨⟨0, 2⟩, ⟨1, 3⟩⟩] ∧
    (generate ⟨0x00000100, 0⟩ true).map (fun m => (bitIndex m.start, bitIndex m.end_)) =
      [(8, 12)] ∧
    BitBoard.IsWithinBoard ⟨-1, 3⟩ = false := by
  decide

/-- Claim C14 (counterexample).  In scenario S3, a white man on square 9 and a
black man on square 13 with White to move, no generated move goes from square
9 to square 17, and `PlayMove` returns `false`. -/
theorem playMove_s3_fails :
    (∀ m ∈ generate ⟨2 ^ 9, 2 ^ 13⟩ true, ¬ (bitIndex m.start = 9 ∧ bitIndex m.end_ = 17)) ∧
    PlayMove ⟨⟨2 ^ 9, 2 ^ 13⟩, ⟨0, 0⟩, true, false⟩ = none := by
  decide

/-- Claim C14 (amended).  In scenario S3 `generate` returns the step from square
9 to square 12 and the jump from square 9, `(2, 2)`, over square 13, `(3, 3)`,
to square 18, `(4, 4)`; the root call of `FindBestMove` keeps the successor
by this jump as its best state, and that state has bit 18 set in the white
mask, bit 13 cleared in the black mask and `is_jump` true. -/
theorem search_s3_selects_jump :
    (generate ⟨2 ^ 9, 2 ^ 13⟩ true).map (fun m => (bitIndex m.start, bitIndex m.end_, m.IsJump)) =
      [(9, 12, false), (9, 18, true)] ∧
    (⟨⟨2, 2⟩, ⟨4, 4⟩⟩ : Move) ∈ generate ⟨2 ^ 9, 2 ^ 13⟩ true ∧
    bitIndex (Move.FillJumpPosition ⟨⟨2, 2⟩, ⟨4, 4⟩⟩) = 13 ∧
    (FindBestMove ⟨⟨2 ^ 9, 2 ^ 13⟩, ⟨0, 0⟩, true, false⟩ 0).game_state =
      some (ApplyMove ⟨⟨2 ^ 9, 2 ^ 13⟩, ⟨0, 0⟩, true, false⟩ ⟨⟨2, 2⟩, ⟨4, 4⟩⟩) ∧
    (ApplyMove ⟨⟨2 ^ 9, 2 ^ 13⟩, ⟨0, 0⟩, true, false⟩
      ⟨⟨2, 2⟩, ⟨4, 4⟩⟩).board.white_piece_set_.testBit 18 = true ∧
    (ApplyMove ⟨⟨2 ^ 9, 2 ^ 13⟩, ⟨0, 0⟩, true, false⟩
      ⟨⟨2, 2⟩, ⟨4, 4⟩⟩).board.black_piece_set_.testBit 13 = false ∧
    (ApplyMove ⟨⟨2 ^ 9, 2 ^ 13⟩, ⟨0, 0⟩, true, false⟩ ⟨⟨2, 2⟩, ⟨4, 4⟩⟩).is_jump = true := by
  decide

/-- Claim C16 (evaluation at the failing input).  With a white man on square 9
and black men on squares 13 and 22, masks disjoint and `is_jump` false at the
root, the search applies the jump from 9 to 18 and then, in the state it
produced, whose `is_jump` is true, the jump from 18 to 27: a call of
`ApplyMove` with `state.is_jump` and `move.IsJump()` both true. -/
theorem search_applies_jump_after_jump :
    (2 ^ 9 : Nat) &&& (2 ^ 13 + 2 ^ 22) = 0 ∧
    (ApplyMove ⟨⟨2 ^ 9, 2 ^ 13 + 2 ^ 22⟩, ⟨0, 0⟩, true, false⟩ ⟨⟨2, 2⟩, ⟨4, 4⟩⟩,
        (⟨⟨4, 4⟩, ⟨6, 6⟩⟩ : Move)) ∈
      applyMoveCalls kMaxDepth ⟨⟨2 ^ 9, 2 ^ 13 + 2 ^ 22⟩, ⟨0, 0⟩, true, false⟩ ∧
    (ApplyMove ⟨⟨2 ^ 9, 2 ^ 13 + 2 ^ 22⟩, ⟨0, 0⟩, true, false⟩ ⟨⟨2, 2⟩, ⟨4, 4⟩⟩).is_jump = true ∧
    Move.IsJump ⟨⟨4, 4⟩, ⟨6, 6⟩⟩ = true := by
  decide

/-! ## The choice made by the search -/

theorem updateBest_eq (w : Bool) (best : Result) (state : GameState) (score : Int) :
    updateBest w best state score =
      if Better w score best.final_score then ⟨some state, score⟩ else best := by
  unfold updateBest Better
  cases w <;> simp

theorem better_trans (w : Bool) (a b c : Int) (h1 : Better w a b = true)
    (h2 : Better w b c = true) : Better w a c = true := by
  unfold Better at *
  cases w <;> simp at * <;> omega

theorem better_of_not_better (w : Bool) (a b c : Int) (h1 : Better w a b = true)
    (h2 : ¬ Better w c b = true) : Better w a c = true := by
  unfold Better at *
  cases w <;> simp at * <;> omega

theorem not_better_of_better (w : Bool) (a b : Int) (h : Better w a b = true) :
    ¬ Better w b a = true := by
  unfold Better at *
  cases w <;> simp at * <;> omega

theorem not_better_self (w : Bool) (a : Int) : ¬ Better w a a = true := by
  unfold Better
  cases w <;> simp

/-- The loop of `FindBestMove` keeps the first move whose value is the best of
all: either no move improved on the initial score, or the list splits around
the chosen move, every earlier move being strictly worse and no later move
better. -/
theorem foldl_updateBest_first_best (gs : GameState) (w : Bool) (value : GameState → Int) :
    ∀ (moves : List Move) (init : Result),
      (moves.foldl (fun best_result move =>
          updateBest w best_result (ApplyMove gs move) (value (ApplyMove gs move))) init = init ∧
        ∀ m ∈ moves, ¬ Better w (value (ApplyMove gs m)) init.final_score = true) ∨
      ∃ pre m post, moves = pre ++ m :: post ∧
        moves.foldl (fun best_result move =>
          updateBest w best_result (ApplyMove gs move) (value (ApplyMove gs move))) init =
            ⟨some (ApplyMove gs m), value (ApplyMove gs m)⟩ ∧
        Better w (value (ApplyMove gs m)) init.final_score = true ∧
        (∀ m' ∈ pre, Better w (value (ApplyMove gs m)) (value (ApplyMove gs m')) = true) ∧
        (∀ m' ∈ post, ¬ Better w (value (ApplyMove gs m')) (value (ApplyMove gs m)) = true) := by
  intro moves
  induction moves with
  | nil => intro init; exact Or.inl ⟨rfl, (fun _ h => by cases h)⟩
  | cons a rest ih =>
    intro init
    rw [List.foldl_cons, updateBest_eq]
    by_cases hb : Better w (value (ApplyMove gs a)) init.final_score = true
    · rw [if_pos hb]
      rcases ih ⟨some (ApplyMove gs a), value (ApplyMove gs a)⟩ with ⟨hr, hall⟩ |
        ⟨pre, m, post, hsplit, hr, hbm, hpre, hpost⟩
      · exact Or.inr ⟨[], a, rest, rfl, hr, hb, (fun _ h => by cases h), hall⟩
      · refine Or.inr ⟨a :: pre, m, post, by rw [hsplit]; rfl, hr,
          better_trans w _ _ _ hbm hb, ?_, hpost⟩
        intro m' hm'
        rcases List.mem_cons.1 hm' with rfl | h
        · exact hbm
        · exact hpre m' h
    · rw [if_neg hb]
      rcases ih init with ⟨hr, hall⟩ | ⟨pre, m, post, hsplit, hr, hbm, hpre, hpost⟩
      · refine Or.inl ⟨hr, ?_⟩
        intro m hm
        rcases List.mem_cons.1 hm with rfl | h
        · exact hb
        · exact hall m h
      · refine Or.inr ⟨a :: pre, m, post, by rw [hsplit]; rfl, hr, hbm, ?_, hpost⟩
        intro m' hm'
        rcases List.mem_cons.1 hm' with rfl | h
        · exact better_of_not_better w _ _ _ hbm hb
        · exact hpre m' h

/-- Claim C17 (choice of the returned state).  Whenever `PlayMove` returns a
state, the generated list of the root splits as `pre ++ m :: post` where the
returned state is `ApplyMove root m`, the immediate successor by `m`; the
value of `m`, the score `FindBestMove` returns for its successor at depth 1,
is the best over all root moves (the maximum when White is to move, the
minimum when Black is to move), and every move before `m` has a strictly
worse value, so ties go to the earliest move. -/
theorem playMove_first_best (gs gs' : GameState) (h : PlayMove gs = some gs') :
    ∃ pre m post,
      generate gs.board gs.is_white_player = pre ++ m :: post ∧
      gs' = ApplyMove gs m ∧
      (gs.is_white_player = true →
        (∀ m' ∈ generate gs.board gs.is_white_player,
          (FindBestMove (ApplyMove gs m') 1).final_score ≤
            (FindBestMove (ApplyMove gs m) 1).final_score) ∧
        ∀ m' ∈ pre, (FindBestMove (ApplyMove gs m') 1).final_score <
          (FindBestMove (ApplyMove gs m) 1).final_score) ∧
      (gs.is_white_player = false →
        (∀ m' ∈ generate gs.board gs.is_white_player,
          (FindBestMove (ApplyMove gs m) 1).final_score ≤
            (FindBestMove (ApplyMove gs m') 1).final_score) ∧
        ∀ m' ∈ pre, (FindBestMove (ApplyMove gs m) 1).final_score <
          (FindBestMove (ApplyMove gs m') 1).final_score) := by
  have hval : ∀ s, successorValue 0 s = (FindBestMove s 1).final_score := by
    intro s; unfold successorValue kMaxDepth; simp
  unfold PlayMove at h
  simp only [] at h
  split_ifs at h with hs
  rw [FindBestMove_unfold gs 0 (Nat.zero_le _)] at h hs
  rcases foldl_updateBest_first_best gs gs.is_white_player (successorValue 0)
      (generate gs.board gs.is_white_player)
      ⟨none, if gs.is_white_player then -50 else 50⟩ with ⟨hr, -⟩ |
    ⟨pre, m, post, hsplit, hr, -, hpre, hpost⟩
  · rw [hr] at h; cases h
  · rw [hr] at h
    have hgs : gs' = ApplyMove gs m := (Option.some.inj h).symm
    have hall : ∀ m' ∈ generate gs.board gs.is_white_player,
        ¬ Better gs.is_white_player (successorValue 0 (ApplyMove gs m'))
          (successorValue 0 (ApplyMove gs m)) = true := by
      intro m' hm'
      rw [hsplit] at hm'
      rcases List.mem_append.1 hm' with h1 | h1
      · exact not_better_of_better _ _ _ (hpre m' h1)
      · rcases List.mem_cons.1 h1 with rfl | h2
        · exact not_better_self _ _
        · exact hpost m' h2
    simp only [hval] at hpre hall
    refine ⟨pre, m, post, hsplit, hgs, ?_, ?_⟩
    · intro hw
      refine ⟨fun m' hm' => ?_, fun m' hm' => ?_⟩
      · have := hall m' hm'
        rw [hw] at this
        simp [Better] at this
        omega
      · have := hpre m' hm'
        rw [hw] at this
        simpa [Better] using this
    · intro hw
      refine ⟨fun m' hm' => ?_, fun m' hm' => ?_⟩
      · have := hall m' hm'
        rw [hw] at this
        simp [Better] at this
        omega
      · have := hpre m' hm'
        rw [hw] at this
        simpa [Better] using this

/-- Witness for C17: a white man on square 1 and a black man on square 30; the
two steps of White, to square 5 and to square 4, have equal value and
`PlayMove` returns the successor by the first. -/
theorem playMove_first_best_witness :
    PlayMove ⟨⟨2 ^ 1, 2 ^ 30⟩, ⟨0, 0⟩, true, false⟩ =
      some ⟨⟨2 ^ 5, 2 ^ 30⟩, ⟨0, 0⟩, false, false⟩ ∧
    ∃ pre m post, generate ⟨2 ^ 1, 2 ^ 30⟩ true = pre ++ m :: post ∧
      (⟨⟨2 ^ 5, 2 ^ 30⟩, ⟨0, 0⟩, false, false⟩ : GameState) =
        ApplyMove ⟨⟨2 ^ 1, 2 ^ 30⟩, ⟨0, 0⟩, true, false⟩ m :=
  ⟨by decide,
    match playMove_first_best ⟨⟨2 ^ 1, 2 ^ 30⟩, ⟨0, 0⟩, true, false⟩
      ⟨⟨2 ^ 5, 2 ^ 30⟩, ⟨0, 0⟩, false, false⟩ (by decide) with
    | ⟨pre, m, post, h1, h2, _⟩ => ⟨pre, m, post, h1, h2⟩⟩

/-! ## The depth of the search -/

theorem applyMove_lt (b : BitBoard) (side : Bool) (m : Move)
    (hw : b.white_piece_set_ < 2 ^ 32) (hb : b.black_piece_set_ < 2 ^ 32)
    (hm : m ∈ generate b side) :
    (b.ApplyMove side m).white_piece_set_ < 2 ^ 32 ∧
      (b.ApplyMove side m).black_piece_set_ < 2 ^ 32 := by
  obtain ⟨s, e, hs, he, hms, hme, -, -, -, -⟩ := generated_masks b side m hm
  have hown : ownSet b side < 2 ^ 32 := by cases side <;> simpa [ownSet]
  have hopp : oppSet b side < 2 ^ 32 := by cases side <;> simpa [oppSet]
  have h1 : ownSet (b.ApplyMove side m) side < 2 ^ 32 := by
    rw [ownSet_applyMove, hms, hme]
    exact setPiece_lt _ e (clearPiece_lt _ _ hown) he
  have h2 : oppSet (b.ApplyMove side m) side < 2 ^ 32 := by
    rw [oppSet_applyMove]
    split_ifs
    · exact clearPiece_lt _ _ hopp
    · exact hopp
  cases side
  · exact ⟨by simpa [oppSet] using h2, by simpa [ownSet] using h1⟩
  · exact ⟨by simpa [ownSet] using h1, by simpa [oppSet] using h2⟩

/-- Claim C18 (counterexample).  For the node with a white man on square 9, a
black man on square 13 and White to move, the call of `FindBestMove` at depth
`kMaxDepth` generates moves and returns the score `1` of the board after
White's jump, while the static evaluation of the node's own board is `0`. -/
theorem findBestMove_depth3_not_static :
    kMaxDepth = 3 ∧
    generate ⟨2 ^ 9, 2 ^ 13⟩ true ≠ [] ∧
    (FindBestMove ⟨⟨2 ^ 9, 2 ^ 13⟩, ⟨0, 0⟩, true, false⟩ kMaxDepth).final_score = 1 ∧
    GameScore ⟨2 ^ 9, 2 ^ 13⟩ = 0 := by
  decide

/-- At a node of depth `kMaxDepth` with 32-bit masks `FindBestMove` still
generates the moves of the side to move: without a move the value of the node
is the sentinel (`-50` for White, `50` for Black), otherwise it is the static
evaluation `GameScore` of the board after one of the node's moves, the best
over all its moves (greatest for White to move, least for Black), and the
state kept is that successor. -/
theorem depth_kMaxDepth_value (gs : GameState)
    (hw : gs.board.white_piece_set_ < 2 ^ 32) (hb : gs.board.black_piece_set_ < 2 ^ 32) :
    (generate gs.board gs.is_white_player = [] →
      (FindBestMove gs kMaxDepth).final_score = (if gs.is_white_player then -50 else 50)) ∧
    (generate gs.board gs.is_white_player ≠ [] →
      ∃ m ∈ generate gs.board gs.is_white_player,
        (FindBestMove gs kMaxDepth).final_score = GameScore (ApplyMove gs m).board ∧
        (FindBestMove gs kMaxDepth).game_state = some (ApplyMove gs m) ∧
        ∀ m' ∈ generate gs.board gs.is_white_player,
          if gs.is_white_player then
            GameScore (ApplyMove gs m').board ≤ GameScore (ApplyMove gs m).board
          else GameScore (ApplyMove gs m).board ≤ GameScore (ApplyMove gs m').board) := by
  have hval : ∀ s, successorValue kMaxDepth s = GameScore s.board := by
    intro s; unfold successorValue; simp
  refine ⟨?_, ?_⟩
  · intro hnil
    rw [FindBestMove_unfold gs kMaxDepth (le_refl _), hnil]
    rfl
  · intro hne
    rw [FindBestMove_unfold gs kMaxDepth (le_refl _)]
    rcases foldl_updateBest_first_best gs gs.is_white_player (successorValue kMaxDepth)
        (generate gs.board gs.is_white_player)
        ⟨none, if gs.is_white_player then -50 else 50⟩ with ⟨-, hall⟩ |
      ⟨pre, m, post, hsplit, hr, -, hpre, hpost⟩
    · exfalso
      obtain ⟨m, hm⟩ := List.exists_mem_of_ne_nil _ hne
      have hlt := applyMove_lt gs.board gs.is_white_player m hw hb hm
      rw [← applyMove_board] at hlt
      have hbd := gameScore_bounds (ApplyMove gs m).board hlt.1 hlt.2
      have := hall m hm
      rw [hval] at this
      revert this
      cases gs.is_white_player <;> simp [Better] <;> omega
    · have hmem : m ∈ generate gs.board gs.is_white_player := by
        rw [hsplit]; simp
      refine ⟨m, hmem, ?_, ?_, ?_⟩
      · rw [hr, hval]
      · rw [hr]
      · intro m' hm'
        have hnb : ¬ Better gs.is_white_player (successorValue kMaxDepth (ApplyMove gs m'))
            (successorValue kMaxDepth (ApplyMove gs m)) = true := by
          rw [hsplit] at hm'
          rcases List.mem_append.1 hm' with h1 | h1
          · exact not_better_of_better _ _ _ (hpre m' h1)
          · rcases List.mem_cons.1 h1 with rfl | h2
            · exact not_better_self _ _
            · exact hpost m' h2
        rw [hval, hval] at hnb
        revert hnb
        cases gs.is_white_player <;> simp [Better]

/-! ## The search does not read the jump bookkeeping -/

theorem foldl_rel {α β γ : Type} (R : β → γ → Prop) (f : β → α → β) (g : γ → α → γ)
    (h : ∀ x y a, R x y → R (f x a) (g y a)) :
    ∀ (l : List α) (x : β) (y : γ), R x y → R (l.foldl f x) (l.foldl g y) := by
  intro l
  induction l with
  | nil => intro x y hxy; exact hxy
  | cons a rest ih => intro x y hxy; exact ih _ _ (h x y a hxy)

theorem stateCore_applyMove (a b : GameState) (m : Move) (h1 : a.board = b.board)
    (h2 : a.is_white_player = b.is_white_player) :
    stateCore (ApplyMove a m) = stateCore (ApplyMove b m) := by
  unfold stateCore ApplyMove
  rw [h1, h2]
  split_ifs <;> rfl

theorem sameResult_updateBest (w : Bool) (r1 r2 : Result) (s1 s2 : GameState) (score : Int)
    (hr : SameResult r1 r2) (hs : stateCore s1 = stateCore s2) :
    SameResult (updateBest w r1 s1 score) (updateBest w r2 s2 score) := by
  rw [updateBest_eq, updateBest_eq, hr.1]
  split_ifs
  · exact ⟨rfl, by simp [hs]⟩
  · exact hr

theorem findBestMoveBelow_zero (gs : GameState) :
    FindBestMoveBelow 0 gs =
      (generate gs.board gs.is_white_player).foldl
        (fun best_result move =>
          updateBest gs.is_white_player best_result (ApplyMove gs move)
            (GameScore (ApplyMove gs move).board))
        ⟨none, if gs.is_white_player then -50 else 50⟩ := rfl

theorem findBestMoveBelow_succ (n : Nat) (gs : GameState) :
    FindBestMoveBelow (n + 1) gs =
      (generate gs.board gs.is_white_player).foldl
        (fun best_result move =>
          updateBest gs.is_white_player best_result (ApplyMove gs move)
            (FindBestMoveBelow n (ApplyMove gs move)).final_score)
        ⟨none, if gs.is_white_player then -50 else 50⟩ := rfl

theorem sameResult_findBestMoveBelow (n : Nat) :
    ∀ a b : GameState, a.board = b.board → a.is_white_player = b.is_white_player →
      SameResult (FindBestMoveBelow n a) (FindBestMoveBelow n b) := by
  induction n with
  | zero =>
    intro a b h1 h2
    rw [findBestMoveBelow_zero, findBestMoveBelow_zero, h1, h2]
    refine foldl_rel SameResult _ _ ?_ _ _ _ ⟨rfl, rfl⟩
    intro x y m hxy
    have hc := stateCore_applyMove a b m h1 h2
    have hb : (ApplyMove a m).board = (ApplyMove b m).board := congrArg Prod.fst hc
    rw [hb]
    exact sameResult_updateBest _ _ _ _ _ _ hxy hc
  | succ n ih =>
    intro a b h1 h2
    rw [findBestMoveBelow_succ, findBestMoveBelow_succ, h1, h2]
    refine foldl_rel SameResult _ _ ?_ _ _ _ ⟨rfl, rfl⟩
    intro x y m hxy
    have hc := stateCore_applyMove a b m h1 h2
    have hb : (ApplyMove a m).board = (ApplyMove b m).board := congrArg Prod.fst hc
    have hw : (ApplyMove a m).is_white_player = (ApplyMove b m).is_white_player :=
      congrArg (fun c => c.2.1) hc
    rw [(ih _ _ hb hw).1]
    exact sameResult_updateBest _ _ _ _ _ _ hxy hc

/-- Claim C20 (the search ignores the jump bookkeeping).  For two states with
the same masks and the same side to move, whatever their `is_jump` and
`last_jump_position`, `generate` returns the same list, `PlayMove` returns the
same flag and, when it plays, states with the same white mask, black mask and
`is_jump`. -/
theorem playMove_ignores_jump_fields (gs1 gs2 : GameState)
    (hb : gs1.board = gs2.board) (hw : gs1.is_white_player = gs2.is_white_player) :
    generate gs1.board gs1.is_white_player = generate gs2.board gs2.is_white_player ∧
    (PlayMove gs1).isSome = (PlayMove gs2).isSome ∧
    (PlayMove gs1).map surfaced = (PlayMove gs2).map surfaced := by
  have hsame : SameResult (FindBestMove gs1 0) (FindBestMove gs2 0) :=
    sameResult_findBestMoveBelow _ gs1 gs2 hb hw
  have hmap : (PlayMove gs1).map stateCore = (PlayMove gs2).map stateCore := by
    unfold PlayMove
    simp only []
    rw [hsame.1]
    split_ifs
    · rfl
    · exact hsame.2
  have hsurf : ∀ o : Option GameState,
      o.map surfaced = (o.map stateCore).map
        (fun c => (c.1.white_piece_set_, c.1.black_piece_set_, c.2.2)) := by
    intro o; cases o <;> rfl
  have hsome : ∀ o : Option GameState, o.isSome = (o.map stateCore).isSome := by
    intro o; cases o <;> rfl
  refine ⟨by rw [hb, hw], ?_, ?_⟩
  · rw [hsome (PlayMove gs1), hsome (PlayMove gs2), hmap]
  · rw [hsurf (PlayMove gs1), hsurf (PlayMove gs2), hmap]

/-- Witness for C20: the same board and side with and without a pending
jump. -/
theorem playMove_ignores_jump_fields_witness :
    (PlayMove ⟨⟨2 ^ 1, 2 ^ 30⟩, ⟨0, 0⟩, true, false⟩).map surfaced =
      (PlayMove ⟨⟨2 ^ 1, 2 ^ 30⟩, ⟨3, 3⟩, true, true⟩).map surfaced :=
  (playMove_ignores_jump_fields ⟨⟨2 ^ 1, 2 ^ 30⟩, ⟨0, 0⟩, true, false⟩
    ⟨⟨2 ^ 1, 2 ^ 30⟩, ⟨3, 3⟩, true, true⟩ rfl rfl).2.2

/-! ## Colour symmetry -/

theorem testBit_foldl_or (c : Nat → Bool) :
    ∀ (l : List Nat) (a j : Nat),
      (l.foldl (fun acc i => acc ||| (if c i then 2 ^ i else 0)) a).testBit j =
        (a.testBit j || (decide (j ∈ l) && c j)) := by
  intro l
  induction l with
  | nil => intro a j; simp
  | cons i rest ih =>
    intro a j
    rw [List.foldl_cons, ih, Nat.testBit_or]
    by_cases hij : j = i
    · subst hij
      cases hc : c j <;> simp [hc]
    · have hne : ¬ i = j := fun h => hij h.symm
      cases hc : c i <;> simp [hc, hij, hne, Nat.testBit_two_pow]

theorem testBit_reverseBits32 (n j : Nat) :
    (reverseBits32 n).testBit j = (decide (j < 32) && n.testBit (31 - j)) := by
  unfold reverseBits32
  rw [testBit_foldl_or (fun i => n.testBit (31 - i))]
  simp

theorem rotate_getPosition (i : Nat) (hi : i < 32) :
    rotate (GetPositionForBitIndex (i : Nat)) = GetPositionForBitIndex ((31 - i : Nat) : Int) := by
  interval_cases i <;> decide

theorem bitIndex_rotate (p : Position) (h : BitBoard.IsWithinBoard p = true) :
    bitIndex (rotate p) = 31 - bitIndex p := by
  obtain ⟨hx0, hx8, hy0, hy8⟩ := (isWithinBoard_iff p).1 h
  obtain ⟨x, y⟩ := p
  simp only at hx0 hx8 hy0 hy8
  interval_cases x <;> interval_cases y <;> decide

theorem rotate_rotate (p : Position) : rotate (rotate p) = p := by
  obtain ⟨x, y⟩ := p
  unfold rotate
  simp

theorem isWithinBoard_rotate (p : Position) (h : BitBoard.IsWithinBoard p = true) :
    BitBoard.IsWithinBoard (rotate p) = true := by
  rw [isWithinBoard_iff] at h ⊢
  unfold rotate
  simp only
  omega

theorem testBit_reverse_rotate (n : Nat) (p : Position) (h : BitBoard.IsWithinBoard p = true) :
    (reverseBits32 n).testBit (bitIndex (rotate p)) = n.testBit (bitIndex p) := by
  have hlt := bitIndex_lt p h
  rw [testBit_reverseBits32, bitIndex_rotate p h]
  have h1 : 31 - bitIndex p < 32 := by omega
  have h2 : 31 - (31 - bitIndex p) = bitIndex p := by omega
  simp [h1, h2]

theorem inRangeEmpty_rotate (w b : Nat) (e : Position) (h : InRangeEmpty ⟨w, b⟩ e) :
    InRangeEmpty ⟨reverseBits32 b, reverseBits32 w⟩ (rotate e) := by
  obtain ⟨hr, hw, hb⟩ := h
  have hin : BitBoard.IsWithinBoard e = true := (isWithinBoard_iff e).2 hr
  refine ⟨(isWithinBoard_iff _).1 (isWithinBoard_rotate e hin), ?_, ?_⟩
  · simp only []
    rw [testBit_reverse_rotate b e hin]; exact hb
  · simp only []
    rw [testBit_reverse_rotate w e hin]; exact hw

theorem ownSet_rotated (w b : Nat) (side : Bool) :
    ownSet ⟨reverseBits32 b, reverseBits32 w⟩ (!side) = reverseBits32 (ownSet ⟨w, b⟩ side) := by
  cases side <;> rfl

theorem oppSet_rotated (w b : Nat) (side : Bool) :
    oppSet ⟨reverseBits32 b, reverseBits32 w⟩ (!side) = reverseBits32 (oppSet ⟨w, b⟩ side) := by
  cases side <;> rfl

theorem forward_not (side : Bool) : forward (!side) = -forward side := by
  cases side <;> rfl

/-- The half-turn of a generated move is generated for the other side on the
rotated board with the colours exchanged. -/
theorem rotateMove_mem_generate (w b : Nat) (side : Bool) (m : Move)
    (hm : m ∈ generate ⟨w, b⟩ side) :
    rotateMove m ∈ generate ⟨reverseBits32 b, reverseBits32 w⟩ (!side) := by
  obtain ⟨i, hi, hbit, hs, hcases⟩ := (mem_generate_iff _ side m).1 hm
  obtain ⟨hsw, -, -, -⟩ := getPositionForBitIndex_facts i hi
  rw [← hs] at hsw
  obtain ⟨sx0, sx8, sy0, sy8⟩ := (isWithinBoard_iff _).1 hsw
  have hf := forward_cases side
  rw [mem_generate_iff]
  refine ⟨31 - i, by omega, ?_, ?_, ?_⟩
  · rw [ownSet_rotated, testBit_reverseBits32]
    have h2 : 31 - (31 - i) = i := by omega
    have h1 : 31 - i < 32 := by omega
    simp [h1, h2, hbit]
  · show rotate m.start = _
    rw [hs, rotate_getPosition i hi]
  · rw [forward_not, oppSet_rotated]
    obtain ⟨s, e⟩ := m
    simp only [rotateMove] at *
    have kill : ∀ dx : Int, (dx = 1 ∨ dx = -1) →
        InRangeEmpty ⟨w, b⟩ ⟨s.x + 2 * dx, s.y + 2 * forward side⟩ →
        (oppSet ⟨w, b⟩ side).testBit (bitIndex ⟨s.x + dx, s.y + forward side⟩) = true →
        (reverseBits32 (oppSet ⟨w, b⟩ side)).testBit
          (bitIndex ⟨(rotate s).x - dx, (rotate s).y + -forward side⟩) = true := by
      intro dx hdx hr hk
      have hkw : BitBoard.IsWithinBoard ⟨s.x + dx, s.y + forward side⟩ = true := by
        rw [isWithinBoard_iff]
        obtain ⟨⟨c1, c2, c3, c4⟩, -, -⟩ := hr
        simp only at c1 c2 c3 c4 ⊢
        rcases hdx with rfl | rfl <;> rcases hf with hf | hf <;> rw [hf] at c3 c4 ⊢ <;> omega
      have hrot : (⟨(rotate s).x - dx, (rotate s).y + -forward side⟩ : Position) =
          rotate ⟨s.x + dx, s.y + forward side⟩ := by
        unfold rotate
        simp only [Position.mk.injEq]
        constructor <;> ring
      rw [hrot, testBit_reverse_rotate _ _ hkw]
      exact hk
    rcases hcases with ⟨he, hr⟩ | ⟨he, hr⟩ | ⟨he, hr, hk⟩ | ⟨he, hr, hk⟩
    · refine Or.inr (Or.inl ⟨?_, inRangeEmpty_rotate w b e hr⟩)
      rw [he]; unfold rotate
      simp only [Position.mk.injEq]
      constructor <;> ring
    · refine Or.inl ⟨?_, inRangeEmpty_rotate w b e hr⟩
      rw [he]; unfold rotate
      simp only [Position.mk.injEq]
      constructor <;> ring
    · refine Or.inr (Or.inr (Or.inr ⟨?_, inRangeEmpty_rotate w b e hr, ?_⟩))
      · rw [he]; unfold rotate
        simp only [Position.mk.injEq]
        constructor <;> ring
      · rw [he] at hr
        have hr' : InRangeEmpty ⟨w, b⟩ ⟨s.x + 2 * 1, s.y + 2 * forward side⟩ := by
          simpa using hr
        exact kill 1 (Or.inl rfl) hr' hk
    · refine Or.inr (Or.inr (Or.inl ⟨?_, inRangeEmpty_rotate w b e hr, ?_⟩))
      · rw [he]; unfold rotate
        simp only [Position.mk.injEq]
        constructor <;> ring
      · rw [he] at hr
        have hr' : InRangeEmpty ⟨w, b⟩ ⟨s.x + 2 * (-1), s.y + 2 * forward side⟩ := by
          simpa [sub_eq_add_neg] using hr
        have hk' : (oppSet ⟨w, b⟩ side).testBit
            (bitIndex ⟨s.x + -1, s.y + forward side⟩) = true := by
          simpa [sub_eq_add_neg] using hk
        have := kill (-1) (Or.inr rfl) hr' hk'
        simpa [sub_eq_add_neg] using this

theorem reverseBits32_reverseBits32 (n : Nat) (h : n < 2 ^ 32) :
    reverseBits32 (reverseBits32 n) = n := by
  apply Nat.eq_of_testBit_eq
  intro j
  rw [testBit_reverseBits32, testBit_reverseBits32]
  by_cases hj : j < 32
  · have h1 : 31 - j < 32 := by omega
    have h2 : 31 - (31 - j) = j := by omega
    simp [hj, h1, h2]
  · have : n.testBit j = false := by
      cases hb : n.testBit j
      · rfl
      · exact absurd (testBit_of_lt n j h hb) hj
    simp [hj, this]

theorem rotateMove_rotateMove (m : Move) : rotateMove (rotateMove m) = m := by
  obtain ⟨s, e⟩ := m
  unfold rotateMove
  simp [rotate_rotate]

/-- Claim C19 (colour symmetry of generation).  For 32-bit masks `w` and `b`, a
move is generated for Black on the board `(w, b)` if and only if its
half-turn, `(x, y)` to `(7 - x, 7 - y)` on both squares, is generated for
White on the board `(rev b, rev w)`, where `rev` reverses the 32 bits of a
mask; the half-turn sends the square of bit index `i` to that of `31 - i`.
Scenario S5 (Black on 22, White on 18) is scenario S3 (White on 9, Black on
13) turned, and Black's jump there is the half-turn of White's jump in S3. -/
theorem generate_colour_symmetry :
    (∀ (w b : Nat) (m : Move), w < 2 ^ 32 → b < 2 ^ 32 →
      (m ∈ generate ⟨w, b⟩ false ↔
        rotateMove m ∈ generate ⟨reverseBits32 b, reverseBits32 w⟩ true)) ∧
    (∀ i : Nat, i < 32 →
      rotate (GetPositionForBitIndex (i : Nat)) = GetPositionForBitIndex ((31 - i : Nat) : Int)) ∧
    (reverseBits32 (2 ^ 22) = 2 ^ 9 ∧ reverseBits32 (2 ^ 18) = 2 ^ 13) ∧
    ((⟨⟨2, 2⟩, ⟨4, 4⟩⟩ : Move) ∈ generate ⟨2 ^ 9, 2 ^ 13⟩ true ∧
      rotateMove ⟨⟨2, 2⟩, ⟨4, 4⟩⟩ ∈ generate ⟨2 ^ 18, 2 ^ 22⟩ false ∧
      Move.IsJump (rotateMove ⟨⟨2, 2⟩, ⟨4, 4⟩⟩) = true) := by
  refine ⟨?_, rotate_getPosition, by decide, by decide⟩
  intro w b m hw hb
  constructor
  · intro hm
    exact rotateMove_mem_generate w b false m hm
  · intro hm
    have := rotateMove_mem_generate (reverseBits32 b) (reverseBits32 w) true _ hm
    rw [rotateMove_rotateMove, reverseBits32_reverseBits32 w hw,
      reverseBits32_reverseBits32 b hb] at this
    exact this

/-- Witness for C19: Black's jump from square 22 to square 13 in S5 and its
half-turn, White's jump from square 9 to square 18 in S3. -/
theorem generate_colour_symmetry_witness :
    rotateMove ⟨⟨5, 5⟩, ⟨3, 3⟩⟩ ∈ generate ⟨reverseBits32 (2 ^ 22), reverseBits32 (2 ^ 18)⟩ true :=
  (generate_colour_symmetry.1 (2 ^ 18) (2 ^ 22) ⟨⟨5, 5⟩, ⟨3, 3⟩⟩ (by decide) (by decide)).1
    (by decide)

/-! ## Bounds on the score of a node -/

/-- The score the loop of `FindBestMove` ends with: the initial score when no
move improves on it, otherwise the value of a move that no other move
betters. -/
theorem foldl_updateBest_score (gs : GameState) (w : Bool) (value : GameState → Int)
    (moves : List Move) (init : Result) :
    ((moves.foldl (fun best_result move =>
          updateBest w best_result (ApplyMove gs move) (value (ApplyMove gs move)))
        init).final_score = init.final_score ∧
      ∀ m ∈ moves, ¬ Better w (value (ApplyMove gs m)) init.final_score = true) ∨
    ∃ m ∈ moves,
      (moves.foldl (fun best_result move =>
          updateBest w best_result (ApplyMove gs move) (value (ApplyMove gs move)))
        init).final_score = value (ApplyMove gs m) ∧
      Better w (value (ApplyMove gs m)) init.final_score = true ∧
      ∀ m' ∈ moves, ¬ Better w (value (ApplyMove gs m')) (value (ApplyMove gs m)) = true := by
  rcases foldl_updateBest_first_best gs w value moves init with ⟨hr, hall⟩ |
    ⟨pre, m, post, hsplit, hr, hbm, hpre, hpost⟩
  · exact Or.inl ⟨by rw [hr], hall⟩
  · refine Or.inr ⟨m, by rw [hsplit]; simp, by rw [hr], hbm, ?_⟩
    intro m' hm'
    rw [hsplit] at hm'
    rcases List.mem_append.1 hm' with h1 | h1
    · exact not_better_of_better _ _ _ (hpre m' h1)
    · rcases List.mem_cons.1 h1 with rfl | h2
      · exact not_better_self _ _
      · exact hpost m' h2

/-- With White to move, a node scores below `50` when all its moves are valued
below `50`, and above `-50` when one of its moves is valued above `-50`. -/
theorem white_node_bounds (gs : GameState) (value : GameState → Int)
    (hw : gs.is_white_player = true) :
    ((∀ m ∈ generate gs.board gs.is_white_player, value (ApplyMove gs m) < 50) →
      ((generate gs.board gs.is_white_player).foldl (fun best_result move =>
          updateBest gs.is_white_player best_result (ApplyMove gs move)
            (value (ApplyMove gs move)))
        ⟨none, if gs.is_white_player then -50 else 50⟩).final_score < 50) ∧
    ((∃ m ∈ generate gs.board gs.is_white_player, -50 < value (ApplyMove gs m)) →
      -50 < ((generate gs.board gs.is_white_player).foldl (fun best_result move =>
          updateBest gs.is_white_player best_result (ApplyMove gs move)
            (value (ApplyMove gs move)))
        ⟨none, if gs.is_white_player then -50 else 50⟩).final_score) := by
  have key := foldl_updateBest_score gs gs.is_white_player value
    (generate gs.board gs.is_white_player) ⟨none, if gs.is_white_player then -50 else 50⟩
  rw [hw] at key ⊢
  simp only [if_true, Better, decide_eq_true_eq, not_lt, gt_iff_lt] at key ⊢
  constructor
  · intro hall
    rcases key with ⟨h1, -⟩ | ⟨m, hm, h1, -, -⟩
    · rw [h1]; norm_num
    · rw [h1]; exact hall m hm
  · rintro ⟨m, hm, hgt⟩
    rcases key with ⟨-, h2⟩ | ⟨m', -, h1, -, h3⟩
    · have := h2 m hm; omega
    · rw [h1]; have := h3 m hm; omega

/-- With Black to move, a node scores below `50` when one of its moves is
valued below `50`, and above `-50` when all its moves are valued above
`-50`. -/
theorem black_node_bounds (gs : GameState) (value : GameState → Int)
    (hb : gs.is_white_player = false) :
    ((∃ m ∈ generate gs.board gs.is_white_player, value (ApplyMove gs m) < 50) →
      ((generate gs.board gs.is_white_player).foldl (fun best_result move =>
          updateBest gs.is_white_player best_result (ApplyMove gs move)
            (value (ApplyMove gs move)))
        ⟨none, if gs.is_white_player then -50 else 50⟩).final_score < 50) ∧
    ((∀ m ∈ generate gs.board gs.is_white_player, -50 < value (ApplyMove gs m)) →
      -50 < ((generate gs.board gs.is_white_player).foldl (fun best_result move =>
          updateBest gs.is_white_player best_result (ApplyMove gs move)
            (value (ApplyMove gs move)))
        ⟨none, if gs.is_white_player then -50 else 50⟩).final_score) := by
  have key := foldl_updateBest_score gs gs.is_white_player value
    (generate gs.board gs.is_white_player) ⟨none, if gs.is_white_player then -50 else 50⟩
  rw [hb] at key ⊢
  simp only [Bool.false_eq_true, if_false, Better, decide_eq_true_eq, not_lt] at key ⊢
  constructor
  · rintro ⟨m, hm, hlt⟩
    rcases key with ⟨-, h2⟩ | ⟨m', -, h1, -, h3⟩
    · have := h2 m hm; omega
    · rw [h1]; have := h3 m hm; omega
  · intro hall
    rcases key with ⟨h1, -⟩ | ⟨m, hm, h1, -, -⟩
    · rw [h1]; norm_num
    · rw [h1]; exact hall m hm

theorem below_white_bounds (n : Nat) (gs : GameState) (hw : gs.is_white_player = true) :
    ((∀ m ∈ generate gs.board gs.is_white_player,
        (FindBestMoveBelow n (ApplyMove gs m)).final_score < 50) →
      (FindBestMoveBelow (n + 1) gs).final_score < 50) ∧
    ((∃ m ∈ generate gs.board gs.is_white_player,
        -50 < (FindBestMoveBelow n (ApplyMove gs m)).final_score) →
      -50 < (FindBestMoveBelow (n + 1) gs).final_score) := by
  rw [findBestMoveBelow_succ]
  exact white_node_bounds gs (fun s => (FindBestMoveBelow n s).final_score) hw

theorem below_black_bounds (n : Nat) (gs : GameState) (hb : gs.is_white_player = false) :
    ((∃ m ∈ generate gs.board gs.is_white_player,
        (FindBestMoveBelow n (ApplyMove gs m)).final_score < 50) →
      (FindBestMoveBelow (n + 1) gs).final_score < 50) ∧
    ((∀ m ∈ generate gs.board gs.is_white_player,
        -50 < (FindBestMoveBelow n (ApplyMove gs m)).final_score) →
      -50 < (FindBestMoveBelow (n + 1) gs).final_score) := by
  rw [findBestMoveBelow_succ]
  exact black_node_bounds gs (fun s => (FindBestMoveBelow n s).final_score) hb

theorem applyMove_state_lt (gs : GameState) (m : Move)
    (h : gs.board.white_piece_set_ < 2 ^ 32 ∧ gs.board.black_piece_set_ < 2 ^ 32)
    (hm : m ∈ generate gs.board gs.is_white_player) :
    (ApplyMove gs m).board.white_piece_set_ < 2 ^ 32 ∧
      (ApplyMove gs m).board.black_piece_set_ < 2 ^ 32 := by
  rw [applyMove_board]
  exact applyMove_lt gs.board gs.is_white_player m h.1 h.2 hm

/-- With Black to move and 32-bit masks, a node at depth `kMaxDepth` scores
above `-50`, and below `50` when Black has a move. -/
theorem below_zero_black_bounds (gs : GameState) (hb : gs.is_white_player = false)
    (h : gs.board.white_piece_set_ < 2 ^ 32 ∧ gs.board.black_piece_set_ < 2 ^ 32) :
    -50 < (FindBestMoveBelow 0 gs).final_score ∧
    (generate gs.board gs.is_white_player ≠ [] → (FindBestMoveBelow 0 gs).final_score < 50) := by
  have hscore : ∀ m ∈ generate gs.board gs.is_white_player,
      -32 ≤ GameScore (ApplyMove gs m).board ∧ GameScore (ApplyMove gs m).board ≤ 32 := by
    intro m hm
    have hlt := applyMove_state_lt gs m h hm
    exact gameScore_bounds _ hlt.1 hlt.2
  rw [findBestMoveBelow_zero]
  have hbounds := black_node_bounds gs (fun s => GameScore s.board) hb
  refine ⟨hbounds.2 (fun m hm => by have := hscore m hm; simp only []; omega), fun hne => ?_⟩
  obtain ⟨m, hm⟩ := List.exists_mem_of_ne_nil _ hne
  exact hbounds.1 ⟨m, hm, by have := hscore m hm; simp only []; omega⟩

/-- A root with White to move scores below `50` when every move of White has a
reply of Black after which every move of White leaves Black with a move, the
side to move alternating. -/
theorem root_score_lt (gs : GameState) (hw : gs.is_white_player = true)
    (h : gs.board.white_piece_set_ < 2 ^ 32 ∧ gs.board.black_piece_set_ < 2 ^ 32)
    (hcert : ∀ m1 ∈ generate gs.board gs.is_white_player, HasSafeReply gs m1) :
    (FindBestMoveBelow 3 gs).final_score < 50 := by
  refine (below_white_bounds 2 gs hw).1 (fun m1 hm1 => ?_)
  obtain ⟨hb1, m2, hm2, hw2, h3⟩ := hcert m1 hm1
  have hl1 := applyMove_state_lt gs m1 h hm1
  have hl2 := applyMove_state_lt _ m2 hl1 hm2
  refine (below_black_bounds 1 _ hb1).1 ⟨m2, hm2, ?_⟩
  refine (below_white_bounds 0 _ hw2).1 (fun m3 hm3 => ?_)
  obtain ⟨hb3, hne⟩ := h3 m3 hm3
  exact (below_zero_black_bounds _ hb3 (applyMove_state_lt _ m3 hl2 hm3)).2 hne

/-- A root with White to move scores above `-50` when White has a move all of
whose replies by Black leave White with a move, the side to move
alternating. -/
theorem root_score_gt (gs : GameState) (hw : gs.is_white_player = true)
    (h : gs.board.white_piece_set_ < 2 ^ 32 ∧ gs.board.black_piece_set_ < 2 ^ 32)
    (hcert : ∃ m1 ∈ generate gs.board gs.is_white_player,
      (ApplyMove gs m1).is_white_player = false ∧
      ∀ m2 ∈ generate (ApplyMove gs m1).board (ApplyMove gs m1).is_white_player,
        (ApplyMove (ApplyMove gs m1) m2).is_white_player = true ∧
        ∃ m3 ∈ generate (ApplyMove (ApplyMove gs m1) m2).board
            (ApplyMove (ApplyMove gs m1) m2).is_white_player,
          (ApplyMove (ApplyMove (ApplyMove gs m1) m2) m3).is_white_player = false) :
    -50 < (FindBestMoveBelow 3 gs).final_score := by
  obtain ⟨m1, hm1, hb1, h2⟩ := hcert
  have hl1 := applyMove_state_lt gs m1 h hm1
  refine (below_white_bounds 2 gs hw).2 ⟨m1, hm1, ?_⟩
  refine (below_black_bounds 1 _ hb1).2 (fun m2 hm2 => ?_)
  obtain ⟨hw2, m3, hm3, hb3⟩ := h2 m2 hm2
  have hl2 := applyMove_state_lt _ m2 hl1 hm2
  refine (below_white_bounds 0 _ hw2).2 ⟨m3, hm3, ?_⟩
  exact (below_zero_black_bounds _ hb3 (applyMove_state_lt _ m3 hl2 hm3)).1

/-! ### The opening position -/

theorem generate_opening :
    generate ⟨0x00000FFF, 0xFFF00000⟩ true =
      [⟨⟨0, 2⟩, ⟨1, 3⟩⟩, ⟨⟨2, 2⟩, ⟨3, 3⟩⟩, ⟨⟨2, 2⟩, ⟨1, 3⟩⟩, ⟨⟨4, 2⟩, ⟨5, 3⟩⟩,
       ⟨⟨4, 2⟩, ⟨3, 3⟩⟩, ⟨⟨6, 2⟩, ⟨7, 3⟩⟩, ⟨⟨6, 2⟩, ⟨5, 3⟩⟩] := by
  decide

set_option maxRecDepth 100000 in
set_option maxHeartbeats 4000000 in
theorem opening_reply_1 :
    HasSafeReply ⟨⟨0x00000FFF, 0xFFF00000⟩, ⟨0, 0⟩, true, false⟩
      ⟨⟨0, 2⟩, ⟨1, 3⟩⟩ := by
  decide!

set_option maxRecDepth 100000 in
set_option maxHeartbeats 4000000 in
theorem opening_reply_2 :
    HasSafeReply ⟨⟨0x00000FFF, 0xFFF00000⟩, ⟨0, 0⟩, true, false⟩
      ⟨⟨2, 2⟩, ⟨3, 3⟩⟩ := by
  decide!

set_option maxRecDepth 100000 in
set_option maxHeartbeats 4000000 in
theorem opening_reply_3 :
    HasSafeReply ⟨⟨0x00000FFF, 0xFFF00000⟩, ⟨0, 0⟩, true, false⟩
      ⟨⟨2, 2⟩, ⟨1, 3⟩⟩ := by
  decide!

set_option maxRecDepth 100000 in
set_option maxHeartbeats 4000000 in
theorem opening_reply_4 :
    HasSafeReply ⟨⟨0x00000FFF, 0xFFF00000⟩, ⟨0, 0⟩, true, false⟩
      ⟨⟨4, 2⟩, ⟨5, 3⟩⟩ := by
  decide!

set_option maxRecDepth 100000 in
set_option maxHeartbeats 4000000 in
theorem opening_reply_5 :
    HasSafeReply ⟨⟨0x00000FFF, 0xFFF00000⟩, ⟨0, 0⟩, true, false⟩
      ⟨⟨4, 2⟩, ⟨3, 3⟩⟩ := by
  decide!

set_option maxRecDepth 100000 in
set_option maxHeartbeats 4000000 in
theorem opening_reply_6 :
    HasSafeReply ⟨⟨0x00000FFF, 0xFFF00000⟩, ⟨0, 0⟩, true, false⟩
      ⟨⟨6, 2⟩, ⟨7, 3⟩⟩ := by
  decide!

set_option maxRecDepth 100000 in
set_option maxHeartbeats 4000000 in
theorem opening_reply_7 :
    HasSafeReply ⟨⟨0x00000FFF, 0xFFF00000⟩, ⟨0, 0⟩, true, false⟩
      ⟨⟨6, 2⟩, ⟨5, 3⟩⟩ := by
  decide!

theorem opening_score_lt :
    (FindBestMoveBelow 3 ⟨⟨0x00000FFF, 0xFFF00000⟩, ⟨0, 0⟩, true, false⟩).final_score < 50 := by
  refine root_score_lt _ rfl (by decide) ?_
  intro m1 hm1
  have hmem : m1 ∈ generate ⟨0x00000FFF, 0xFFF00000⟩ true := hm1
  rw [generate_opening] at hmem
  simp only [List.mem_cons, List.mem_singleton, List.not_mem_nil, or_false] at hmem
  rcases hmem with rfl | rfl | rfl | rfl | rfl | rfl | rfl
  · exact opening_reply_1
  · exact opening_reply_2
  · exact opening_reply_3
  · exact opening_reply_4
  · exact opening_reply_5
  · exact opening_reply_6
  · exact opening_reply_7

set_option maxRecDepth 100000 in
set_option maxHeartbeats 4000000 in
theorem opening_score_gt :
    -50 < (FindBestMoveBelow 3 ⟨⟨0x00000FFF, 0xFFF00000⟩, ⟨0, 0⟩, true, false⟩).final_score :=
  root_score_gt _ rfl (by decide) (by decide!)

set_option maxRecDepth 100000 in
set_option maxHeartbeats 4000000 in
theorem opening_successor_counts :
    ∀ m ∈ generate ⟨0x00000FFF, 0xFFF00000⟩ true,
      (ApplyMove ⟨⟨0x00000FFF, 0xFFF00000⟩, ⟨0, 0⟩, true, false⟩ m).board.NumWhitePieces = 12 ∧
      (ApplyMove ⟨⟨0x00000FFF, 0xFFF00000⟩, ⟨0, 0⟩, true, false⟩ m).board.NumBlackPieces = 12 := by
  decide!

/-- Claim C15 (scenario S4, search).  From the standard opening position with
White to move, `PlayMove` returns `true` with a state whose board has twelve
white and twelve black pieces. -/
theorem playMove_opening :
    ∃ s, PlayMove ⟨⟨0x00000FFF, 0xFFF00000⟩, ⟨0, 0⟩, true, false⟩ = some s ∧
      s.board.NumWhitePieces = 12 ∧ s.board.NumBlackPieces = 12 := by
  have hlt := opening_score_lt
  have hgt := opening_score_gt
  have hsome : (PlayMove ⟨⟨0x00000FFF, 0xFFF00000⟩, ⟨0, 0⟩, true, false⟩).isSome = true := by
    rw [playMove_isSome_iff]
    have hF : FindBestMove ⟨⟨0x00000FFF, 0xFFF00000⟩, ⟨0, 0⟩, true, false⟩ 0 =
        FindBestMoveBelow 3 ⟨⟨0x00000FFF, 0xFFF00000⟩, ⟨0, 0⟩, true, false⟩ := rfl
    rw [hF]
    intro hor
    rcases hor with h | h <;> rw [h] at hlt hgt <;> omega
  obtain ⟨s, hs⟩ := Option.isSome_iff_exists.1 hsome
  obtain ⟨m, hm, hsm⟩ := playMove_eq_applyMove _ s hs
  refine ⟨s, hs, ?_⟩
  rw [hsm]
  exact opening_successor_counts m hm

/-! ## The search is four plies deep -/

theorem updateBest_final_score (w : Bool) (best : Result) (state : GameState) (score : Int) :
    (updateBest w best state score).final_score =
      if w then max best.final_score score else min best.final_score score := by
  unfold updateBest
  cases w
  · simp only [Bool.false_eq_true, if_false]
    split_ifs with h
    · exact (min_eq_right (le_of_lt h)).symm
    · exact (min_eq_left (not_lt.1 h)).symm
  · simp only [if_true]
    split_ifs with h
    · exact (max_eq_right (le_of_lt h)).symm
    · exact (max_eq_left (not_lt.1 h)).symm

/-- The score the loop of `FindBestMove` ends with is the running maximum
(White to move) or minimum (Black to move) of the values of the moves. -/
theorem foldl_updateBest_final_score (gs : GameState) (w : Bool) (value : GameState → Int) :
    ∀ (moves : List Move) (init : Result),
      (moves.foldl (fun best_result move =>
          updateBest w best_result (ApplyMove gs move) (value (ApplyMove gs move)))
        init).final_score =
      if w then (moves.map (fun m => value (ApplyMove gs m))).foldl max init.final_score
      else (moves.map (fun m => value (ApplyMove gs m))).foldl min init.final_score := by
  intro moves
  induction moves with
  | nil => intro init; cases w <;> rfl
  | cons a rest ih =>
    intro init
    rw [List.foldl_cons, ih, updateBest_final_score]
    cases w <;> simp

theorem chooseWith_final_score (value : GameState → Int) (gs : GameState) :
    (chooseWith value gs).final_score =
      if gs.is_white_player then
        ((generate gs.board gs.is_white_player).map
          (fun m => value (ApplyMove gs m))).foldl max (-50)
      else
        ((generate gs.board gs.is_white_player).map
          (fun m => value (ApplyMove gs m))).foldl min 50 := by
  unfold chooseWith
  rw [foldl_updateBest_final_score]
  cases gs.is_white_player <;> rfl

theorem findBestMoveBelow_zero_eq (gs : GameState) :
    FindBestMoveBelow 0 gs = chooseWith (fun s => GameScore s.board) gs := rfl

theorem findBestMoveBelow_succ_eq (n : Nat) (gs : GameState) :
    FindBestMoveBelow (n + 1) gs =
      chooseWith (fun s => (FindBestMoveBelow n s).final_score) gs := rfl

/-- The score of a call with `n` recursive levels below it is the minimax
value of the node over `n + 1` plies. -/
theorem findBestMoveBelow_final_score (n : Nat) :
    ∀ gs : GameState, (FindBestMoveBelow n gs).final_score = minimaxValue (n + 1) gs := by
  induction n with
  | zero =>
    intro gs
    rw [findBestMoveBelow_zero_eq, chooseWith_final_score]
    rfl
  | succ n ih =>
    intro gs
    rw [findBestMoveBelow_succ_eq, chooseWith_final_score]
    have hfun : (fun m => (FindBestMoveBelow n (ApplyMove gs m)).final_score) =
        (fun m => minimaxValue (n + 1) (ApplyMove gs m)) := by
      funext m; exact ih _
    rw [hfun]
    rfl

/-- Claim C18 (amended).  The constant `kMaxDepth` is 3 and `PlayMove` enters
`FindBestMove` at depth 0.  A call at a depth below `kMaxDepth` values each
successor by the score of the recursive call one deeper; a call at depth
`kMaxDepth` still generates the moves of the side to move and values each
successor by its static evaluation `GameScore`.  So the score returned at
depth `d` is the minimax value of the node over `kMaxDepth + 1 - d` plies,
four plies at the root, and the result of the root call is the choice among
the root moves by the three-ply minimax values of their successors.  At a node
of depth `kMaxDepth` with 32-bit masks the value is the sentinel when there
is no move and otherwise the best static evaluation over the successors, the
state kept being that successor.  The fourth ply matters: with a white man on
square 1 and black men on squares 13 and 14, `PlayMove` plays the step to
square 4, whereas the choice by two-ply values of the successors, a search of
three plies, is the step to square 5, which loses the man on the fourth
ply. -/
theorem search_depth_four_plies :
    kMaxDepth = 3 ∧
    (∀ gs : GameState,
      PlayMove gs =
        if (FindBestMove gs 0).final_score = 50 ∨ (FindBestMove gs 0).final_score = -50
        then none else (FindBestMove gs 0).game_state) ∧
    (∀ (gs : GameState) (depth : Nat), depth < kMaxDepth →
      FindBestMove gs depth =
        chooseWith (fun s => (FindBestMove s (depth + 1)).final_score) gs) ∧
    (∀ gs : GameState,
      FindBestMove gs kMaxDepth = chooseWith (fun s => GameScore s.board) gs) ∧
    (∀ (gs : GameState) (depth : Nat), depth ≤ kMaxDepth →
      (FindBestMove gs depth).final_score = minimaxValue (kMaxDepth + 1 - depth) gs) ∧
    (∀ gs : GameState, FindBestMove gs 0 = chooseWith (minimaxValue kMaxDepth) gs) ∧
    (∀ gs : GameState,
      gs.board.white_piece_set_ < 2 ^ 32 → gs.board.black_piece_set_ < 2 ^ 32 →
      (generate gs.board gs.is_white_player = [] →
        (FindBestMove gs kMaxDepth).final_score = (if gs.is_white_player then -50 else 50)) ∧
      (generate gs.board gs.is_white_player ≠ [] →
        ∃ m ∈ generate gs.board gs.is_white_player,
          (FindBestMove gs kMaxDepth).final_score = GameScore (ApplyMove gs m).board ∧
          (FindBestMove gs kMaxDepth).game_state = some (ApplyMove gs m) ∧
          ∀ m' ∈ generate gs.board gs.is_white_player,
            if gs.is_white_player then
              GameScore (ApplyMove gs m').board ≤ GameScore (ApplyMove gs m).board
            else GameScore (ApplyMove gs m).board ≤ GameScore (ApplyMove gs m').board)) ∧
    (generate ⟨2 ^ 1, 2 ^ 13 + 2 ^ 14⟩ true = [⟨⟨2, 0⟩, ⟨3, 1⟩⟩, ⟨⟨2, 0⟩, ⟨1, 1⟩⟩] ∧
      PlayMove ⟨⟨2 ^ 1, 2 ^ 13 + 2 ^ 14⟩, ⟨0, 0⟩, true, false⟩ =
        some (ApplyMove ⟨⟨2 ^ 1, 2 ^ 13 + 2 ^ 14⟩, ⟨0, 0⟩, true, false⟩ ⟨⟨2, 0⟩, ⟨1, 1⟩⟩) ∧
      (chooseWith (minimaxValue 2) ⟨⟨2 ^ 1, 2 ^ 13 + 2 ^ 14⟩, ⟨0, 0⟩, true, false⟩).game_state =
        some (ApplyMove ⟨⟨2 ^ 1, 2 ^ 13 + 2 ^ 14⟩, ⟨0, 0⟩, true, false⟩ ⟨⟨2, 0⟩, ⟨3, 1⟩⟩) ∧
      minimaxValue 2
        (ApplyMove ⟨⟨2 ^ 1, 2 ^ 13 + 2 ^ 14⟩, ⟨0, 0⟩, true, false⟩ ⟨⟨2, 0⟩, ⟨3, 1⟩⟩) = -1 ∧
      minimaxValue 3
        (ApplyMove ⟨⟨2 ^ 1, 2 ^ 13 + 2 ^ 14⟩, ⟨0, 0⟩, true, false⟩ ⟨⟨2, 0⟩, ⟨3, 1⟩⟩) = -2 ∧
      minimaxValue 3
        (ApplyMove ⟨⟨2 ^ 1, 2 ^ 13 + 2 ^ 14⟩, ⟨0, 0⟩, true, false⟩ ⟨⟨2, 0⟩, ⟨1, 1⟩⟩) = -1) := by
  refine ⟨rfl, fun gs => rfl, ?_, fun gs => rfl, ?_, ?_, ?_, by decide⟩
  · intro gs depth h
    unfold kMaxDepth at h
    interval_cases depth <;> rfl
  · intro gs depth h
    unfold kMaxDepth at h
    unfold FindBestMove
    rw [findBestMoveBelow_final_score]
    unfold kMaxDepth
    congr 1
    omega
  · intro gs
    have h : FindBestMove gs 0 =
        chooseWith (fun s => (FindBestMoveBelow 2 s).final_score) gs := rfl
    rw [h]
    congr 1
    funext s
    exact findBestMoveBelow_final_score 2 s
  · intro gs hw hb
    exact depth_kMaxDepth_value gs hw hb

/-- Witness for C18 (amended): the node with a white man on square 9 and a
black man on square 13, White to move, at depth `kMaxDepth`, and the score of
the root call at the root with a white man on square 1 and black men on
squares 13 and 14. -/
theorem search_depth_four_plies_witness :
    (∃ m ∈ generate ⟨2 ^ 9, 2 ^ 13⟩ true,
      (FindBestMove ⟨⟨2 ^ 9, 2 ^ 13⟩, ⟨0, 0⟩, true, false⟩ kMaxDepth).final_score =
        GameScore (ApplyMove ⟨⟨2 ^ 9, 2 ^ 13⟩, ⟨0, 0⟩, true, false⟩ m).board) ∧
    (FindBestMove ⟨⟨2 ^ 1, 2 ^ 13 + 2 ^ 14⟩, ⟨0, 0⟩, true, false⟩ 0).final_score =
      minimaxValue (kMaxDepth + 1 - 0) ⟨⟨2 ^ 1, 2 ^ 13 + 2 ^ 14⟩, ⟨0, 0⟩, true, false⟩ :=
  ⟨match (search_depth_four_plies.2.2.2.2.2.2.1 ⟨⟨2 ^ 9, 2 ^ 13⟩, ⟨0, 0⟩, true, false⟩
      (by decide) (by decide)).2 (by decide) with
    | ⟨m, hm, h1, _⟩ => ⟨m, hm, h1⟩,
    search_depth_four_plies.2.2.2.2.1 ⟨⟨2 ^ 1, 2 ^ 13 + 2 ^ 14⟩, ⟨0, 0⟩, true, false⟩ 0
      (by decide)⟩

end NativeBot
